import Mathlib

/-!
Verification development for a fine-grained reactive update system
(a dependency-tracking engine with bit-marker incremental re-tracking,
a trigger dispatch algorithm, an id-ordered job scheduler, and a
deferred computed primitive).

The definitions below are a shallow embedding of the source modules
`reactivity/src/effect.ts`, `reactivity/src/dep.ts`,
`runtime-core/src/scheduler.ts` and `reactivity/src/deferredComputed.ts`:

* `Dep` objects (sets of subscribed effects plus `w`/`n` bit markers) are
  identified with their (target, key) slot in the global target map, since
  the source creates exactly one dep per slot and never moves it.
* JS `Set` insertion-order semantics are modelled by `List Nat` with
  membership-guarded append (`addEff`) and `List.erase` (`delEff`).
* Machine integers used as bit masks (`trackOpBit`, `dep.w`, `dep.n`) are
  modelled as `Nat` with `|||` / `Nat.ldiff` (the source only ever sets and
  clears single bits below position 31, so no overflow is observable).
* The body of an effect (`fn`) is modelled as a `Script`: a finite sequence
  of `track` reads and nested `run()` invocations of other effects, which is
  the interface the tracked code exercises on this module.
-/

namespace Reactivity

/-- Keys of the per-target dep map.  Numeric (integer-string) keys of array
targets are represented by `idx`; other string keys by `str`; the two
sentinel symbols `ITERATE_KEY` / `MAP_KEY_ITERATE_KEY` by the last two
constructors. -/
inductive RKey where
  | str (s : String)
  | idx (n : Nat)
  | iterateKey
  | mapKeyIterateKey
deriving DecidableEq, Repr

/-- A dependency set: the subscribed effects (in insertion order, mirroring
the JS `Set`) and the `w` (was tracked) / `n` (newly tracked) bit masks. -/
structure DepD where
  effects : List Nat
  w : Nat
  n : Nat
deriving DecidableEq, Repr

/-- The per-effect record of `class ReactiveEffect`: `active` flag, the
`deps` back-list, the `allowRecurse` / `deferStop` flags, and the presence
of a `scheduler` and of a `computed` back-reference. -/
structure EffD where
  active : Bool
  deps : List (Nat × RKey)
  allowRecurse : Bool
  hasSched : Bool
  isComputed : Bool
  deferStop : Bool
deriving DecidableEq, Repr

/-- The record an unknown effect id denotes: inert and unsubscribed. -/
def defaultEffD : EffD :=
  { active := false, deps := [], allowRecurse := false, hasSched := false,
    isComputed := false, deferStop := false }

/-- The module-global state: the target map (one entry per (target, key)
slot), the effect table, the stack of currently running effects (the head
is `activeEffect`; the `parent` chain of the source is this stack), and the
tracking globals `shouldTrack` / `trackStack` / `effectTrackDepth` /
`trackOpBit`. -/
structure RState where
  tm : List ((Nat × RKey) × DepD)
  effs : List (Nat × EffD)
  runStack : List Nat
  shouldTrack : Bool
  trackStack : List Bool
  depth : Nat
  trackOpBit : Nat
deriving DecidableEq, Repr

/-- `const maxMarkerBits = 30`. -/
def maxMarkerBits : Nat := 30

def lookupTM : List ((Nat × RKey) × DepD) → (Nat × RKey) → Option DepD
  | [], _ => none
  | p :: rest, tk => if p.1 = tk then some p.2 else lookupTM rest tk

def updTM (tm : List ((Nat × RKey) × DepD)) (tk : Nat × RKey) (f : DepD → DepD) :
    List ((Nat × RKey) × DepD) :=
  tm.map (fun p => if p.1 = tk then (p.1, f p.2) else p)

def lookupEff : List (Nat × EffD) → Nat → Option EffD
  | [], _ => none
  | q :: rest, e => if q.1 = e then some q.2 else lookupEff rest e

def updEff (effs : List (Nat × EffD)) (e : Nat) (f : EffD → EffD) :
    List (Nat × EffD) :=
  effs.map (fun q => if q.1 = e then (q.1, f q.2) else q)

def getEff (st : RState) (e : Nat) : EffD := (lookupEff st.effs e).getD defaultEffD

def getDeps (st : RState) (e : Nat) : List (Nat × RKey) := (getEff st e).deps

/-- `export let activeEffect` — the head of the run stack. -/
def activeEffect (st : RState) : Option Nat := st.runStack.head?

/-- JS `Set.add`: append only when absent (preserves insertion order). -/
def addEff (e : Nat) (d : DepD) : DepD :=
  if e ∈ d.effects then d else { d with effects := d.effects ++ [e] }

/-- JS `Set.delete`. -/
def delEff (e : Nat) (d : DepD) : DepD := { d with effects := d.effects.erase e }

/-- `wasTracked = (dep.w & trackOpBit) > 0`. -/
def wasTracked (st : RState) (d : DepD) : Prop := 0 < d.w &&& st.trackOpBit

/-- `newTracked = (dep.n & trackOpBit) > 0`. -/
def newTracked (st : RState) (d : DepD) : Prop := 0 < d.n &&& st.trackOpBit

instance (st : RState) (d : DepD) : Decidable (wasTracked st d) := by
  unfold wasTracked; infer_instance

instance (st : RState) (d : DepD) : Decidable (newTracked st d) := by
  unfold newTracked; infer_instance

/-- The body of `dep.add(activeEffect); activeEffect.deps.push(dep)`. -/
def subscribe (st : RState) (tk : Nat × RKey) (e : Nat) : RState :=
  { st with tm := updTM st.tm tk (addEff e),
            effs := updEff st.effs e (fun ed => { ed with deps := ed.deps ++ [tk] }) }

/-- `trackEffects(dep)`, with the dep addressed by its slot. -/
def trackEffectsOp (st : RState) (tk : Nat × RKey) : RState :=
  match activeEffect st with
  | none => st
  | some e =>
    match lookupTM st.tm tk with
    | none => st
    | some d =>
      if st.depth ≤ maxMarkerBits then
        if ¬ newTracked st d then
          let st' := { st with
            tm := updTM st.tm tk (fun dd => { dd with n := dd.n ||| st.trackOpBit }) }
          if ¬ wasTracked st d then subscribe st' tk e else st'
        else st
      else
        if e ∉ d.effects then subscribe st tk e else st

/-- The lazy creation of the target map entry and the dep in `track`. -/
def ensureSlot (st : RState) (tk : Nat × RKey) : RState :=
  match lookupTM st.tm tk with
  | some _ => st
  | none => { st with tm := st.tm ++ [(tk, ⟨[], 0, 0⟩)] }

/-- `track(target, type, key)` (the `type` argument is dev-only event
information and does not affect the algorithm). -/
def trackOp (st : RState) (t : Nat) (k : RKey) : RState :=
  if st.shouldTrack ∧ (activeEffect st).isSome then
    trackEffectsOp (ensureSlot st (t, k)) (t, k)
  else st

/-- `initDepMarkers`: `deps[i].w |= trackOpBit` for every current dep. -/
def markWas (bit : Nat) : List (Nat × RKey) → List ((Nat × RKey) × DepD) →
    List ((Nat × RKey) × DepD)
  | [], tm => tm
  | tk :: rest, tm => markWas bit rest (updTM tm tk (fun dd => { dd with w := dd.w ||| bit }))

def initDepMarkersOp (e : Nat) (st : RState) : RState :=
  { st with tm := markWas st.trackOpBit (getDeps st e) st.tm }

/-- The per-slot update of the `finalizeDepMarkers` sweep: delete the
effect when `del` (the dep was tracked before but not in this run), then
clear both marker bits at the current depth (`dep.w &= ~trackOpBit`,
`dep.n &= ~trackOpBit`). -/
def finUpd (e : Nat) (bit : Nat) (del : Bool) (d : DepD) : DepD :=
  let d' := if del then delEff e d else d
  { d' with w := Nat.ldiff d'.w bit, n := Nat.ldiff d'.n bit }

/-- The sweep loop of `finalizeDepMarkers`: returns the compacted `deps`
list and the updated target map. -/
def finSweep (e : Nat) (bit : Nat) : List (Nat × RKey) → List ((Nat × RKey) × DepD) →
    List (Nat × RKey) × List ((Nat × RKey) × DepD)
  | [], tm => ([], tm)
  | tk :: rest, tm =>
    match lookupTM tm tk with
    | none =>
      let r := finSweep e bit rest tm
      (tk :: r.1, r.2)
    | some d =>
      let del : Bool := decide (0 < d.w &&& bit) && ! decide (0 < d.n &&& bit)
      let r := finSweep e bit rest (updTM tm tk (finUpd e bit del))
      (if del then r.1 else tk :: r.1, r.2)

def finalizeDepMarkersOp (e : Nat) (st : RState) : RState :=
  let r := finSweep e st.trackOpBit (getDeps st e) st.tm
  { st with tm := r.2, effs := updEff st.effs e (fun ed => { ed with deps := r.1 }) }

/-- `cleanupEffect`: delete the effect from every dep it subscribes to and
truncate its `deps` list. -/
def delFromDeps (e : Nat) : List (Nat × RKey) → List ((Nat × RKey) × DepD) →
    List ((Nat × RKey) × DepD)
  | [], tm => tm
  | tk :: rest, tm => delFromDeps e rest (updTM tm tk (delEff e))

def cleanupEffectOp (e : Nat) (st : RState) : RState :=
  { st with tm := delFromDeps e (getDeps st e) st.tm,
            effs := updEff st.effs e (fun ed => { ed with deps := [] }) }

/-- `ReactiveEffect.stop()`. -/
def stopOp (e : Nat) (st : RState) : RState :=
  if activeEffect st = some e then
    { st with effs := updEff st.effs e (fun ed => { ed with deferStop := true }) }
  else if (getEff st e).active then
    let st' := cleanupEffectOp e st
    { st' with effs := updEff st'.effs e (fun ed => { ed with active := false }) }
  else st

/-- `pauseTracking()`. -/
def pauseTrackingOp (st : RState) : RState :=
  { st with trackStack := st.shouldTrack :: st.trackStack, shouldTrack := false }

/-- `enableTracking()`. -/
def enableTrackingOp (st : RState) : RState :=
  { st with trackStack := st.shouldTrack :: st.trackStack, shouldTrack := true }

/-- `resetTracking()`: `shouldTrack = last === undefined ? true : last`. -/
def resetTrackingOp (st : RState) : RState :=
  match st.trackStack with
  | [] => { st with shouldTrack := true }
  | v :: rest => { st with shouldTrack := v, trackStack := rest }

/-- The body of an effect's `fn`, as the sequence of reads (`track`) it
performs and the nested `run()` invocations it causes. -/
inductive Script where
  | nil
  | track (t : Nat) (k : RKey) (rest : Script)
  | runE (e : Nat) (body : Script) (rest : Script)
deriving Repr

/-- The entry sequence of `run()` once the effect is known to be active and
not already on the parent chain: push onto the stack (`parent` chain /
`activeEffect`), enable tracking, `trackOpBit = 1 << ++effectTrackDepth`. -/
def pushEff (st : RState) (e : Nat) : RState :=
  { st with runStack := e :: st.runStack, shouldTrack := true,
            depth := st.depth + 1, trackOpBit := 2 ^ (st.depth + 1) }

/-- `if (effectTrackDepth <= maxMarkerBits) initDepMarkers(this) else cleanupEffect(this)`
performed after the push. -/
def enterEff (st : RState) (e : Nat) : RState :=
  if (pushEff st e).depth ≤ maxMarkerBits then initDepMarkersOp e (pushEff st e)
  else cleanupEffectOp e (pushEff st e)

/-- The `finally` restore of `run()`: pop the stack, `trackOpBit = 1 << --effectTrackDepth`,
restore `shouldTrack` to the saved value. -/
def popEff (st : RState) (b : Bool) : RState :=
  { st with depth := st.depth - 1, trackOpBit := 2 ^ (st.depth - 1),
            runStack := st.runStack.tail, shouldTrack := b }

/-- The exit sequence of `run()`: `if (effectTrackDepth <= maxMarkerBits)
finalizeDepMarkers(this)`, then the global restore. -/
def exitEff (st : RState) (e : Nat) (b : Bool) : RState :=
  popEff (if st.depth ≤ maxMarkerBits then finalizeDepMarkersOp e st else st) b

/-- Executes a script; the `runE` case is the translation of
`ReactiveEffect.run()` (inactive short-circuit, parent-chain re-entry
check, marker init, body, marker finalize, global restore, deferred stop). -/
def execScript : RState → Script → RState
  | st, .nil => st
  | st, .track t k rest => execScript (trackOp st t k) rest
  | st, .runE e body rest =>
    let st' :=
      if ¬ (getEff st e).active then execScript st body
      else if e ∈ st.runStack then st
      else
        let st₃ := execScript (enterEff st e) body
        let st₅ := exitEff st₃ e st.shouldTrack
        if (getEff st₅ e).deferStop then stopOp e st₅ else st₅
    execScript st' rest

/-- The state transition of one `run()` call (the `runE` step without the
trailing script). -/
def runEStep (st : RState) (e : Nat) (body : Script) : RState :=
  if ¬ (getEff st e).active then execScript st body
  else if e ∈ st.runStack then st
  else
    let st₃ := execScript (enterEff st e) body
    let st₅ := exitEff st₃ e st.shouldTrack
    if (getEff st₅ e).deferStop then stopOp e st₅ else st₅

/-- `run()` of a single effect whose `fn` performs `body`. -/
def runEffOp (st : RState) (e : Nat) (body : Script) : RState :=
  execScript st (.runE e body .nil)

/-- What `triggerEffect` does to an effect: invoke its scheduler, or `run()`. -/
inductive Fire where
  | schedF (e : Nat)
  | runF (e : Nat)
deriving DecidableEq, Repr

def Fire.eff : Fire → Nat
  | .schedF e => e
  | .runF e => e

/-- `triggerEffect(effect)`: skipped exactly when the effect is the current
`activeEffect` and `allowRecurse` is falsy; otherwise the scheduler is
invoked if present, else `run()`. -/
def triggerEffectOp (st : RState) (e : Nat) : Option Fire :=
  if activeEffect st ≠ some e ∨ (getEff st e).allowRecurse then
    some (if (getEff st e).hasSched then .schedF e else .runF e)
  else none

/-- `triggerEffects(dep)`: over the stabilized snapshot, first every effect
with a `computed` back-reference, then every effect without one. -/
def triggerEffectsOp (st : RState) (effects : List Nat) : List Fire :=
  effects.filterMap (fun e =>
    if (getEff st e).isComputed then triggerEffectOp st e else none)
  ++ effects.filterMap (fun e =>
    if !(getEff st e).isComputed then triggerEffectOp st e else none)

/-- `TriggerOpTypes`. -/
inductive TrigType where
  | set | add | delete | clear
deriving DecidableEq, Repr

/-- The partial view of targets the trigger algorithm consults through the
external collaborators `isArray` / `isMap`. -/
structure TgtEnv where
  isArr : Nat → Bool
  isMapT : Nat → Bool

/-- The slots of one target, in map insertion order (`depsMap.forEach`). -/
def targetSlots (st : RState) (t : Nat) : List ((Nat × RKey) × DepD) :=
  st.tm.filter (fun p => p.1.1 = t)

/-- The JS comparison `key >= newLength` performed on a dep-map key of an
array target: true exactly for numeric-index keys at least `newLength`
(`'length' >= n` is false via NaN; the proxy layer produces only `'length'`
and integer-string keys on array targets). -/
def keyGeNum (k : RKey) (n : Nat) : Bool :=
  match k with
  | .idx i => decide (n ≤ i)
  | _ => false

/-- `isIntegerKey(key)`. -/
def isIntKey : Option RKey → Bool
  | some (.idx _) => true
  | _ => false

/-- The candidate dep list assembled by `trigger` (entries are `Option`
because `depsMap.get(key)` can produce `undefined`). -/
def triggerDeps (env : TgtEnv) (st : RState) (t : Nat) (ty : TrigType)
    (key : Option RKey) (newValue : Nat) : List (Option DepD) :=
  if ty = .clear then
    (targetSlots st t).map (fun p => some p.2)
  else if key = some (.str "length") ∧ env.isArr t then
    (targetSlots st t).filterMap (fun p =>
      if p.1.2 = .str "length" ∨ keyGeNum p.1.2 newValue then some (some p.2) else none)
  else
    (match key with
     | some k => [lookupTM st.tm (t, k)]
     | none => [])
    ++ (match ty with
        | .add =>
          if ¬ env.isArr t then
            [lookupTM st.tm (t, .iterateKey)]
            ++ (if env.isMapT t then [lookupTM st.tm (t, .mapKeyIterateKey)] else [])
          else if isIntKey key then [lookupTM st.tm (t, .str "length")] else []
        | .delete =>
          if ¬ env.isArr t then
            [lookupTM st.tm (t, .iterateKey)]
            ++ (if env.isMapT t then [lookupTM st.tm (t, .mapKeyIterateKey)] else [])
          else []
        | .set => if env.isMapT t then [lookupTM st.tm (t, .iterateKey)] else []
        | .clear => [])

/-- `createDep(effects)` applied to the flattened effect list: a JS `Set`
deduplicates keeping first occurrences. -/
def dedupL (l : List Nat) : List Nat :=
  l.foldl (fun acc x => if x ∈ acc then acc else acc ++ [x]) []

/-- `trigger(target, type, key, newValue)`: the effects fired (the state of
this module is not mutated by `trigger` itself; mutation happens inside the
invoked effects, which the operation semantics below runs separately). -/
def triggerFired (env : TgtEnv) (st : RState) (t : Nat) (ty : TrigType)
    (key : Option RKey) (newValue : Nat) : List Fire :=
  if targetSlots st t = [] then []
  else
    let deps := triggerDeps env st t ty key newValue
    if deps.length = 1 then
      match deps with
      | [some d] => triggerEffectsOp st d.effects
      | _ => []
    else
      triggerEffectsOp st
        (dedupL (deps.foldl (fun acc od =>
          match od with
          | some d => acc ++ d.effects
          | none => acc) []))

/-- The public operations of the module, as invoked from the outside (at
rest, with no effect currently running). -/
inductive ROp where
  | runO (e : Nat) (body : Script)
  | trackO (t : Nat) (k : RKey)
  | stopO (e : Nat)
  | trigO (t : Nat) (ty : TrigType) (k : Option RKey) (nv : Nat)

def applyROp (env : TgtEnv) (st : RState) : ROp → RState × List Fire
  | .runO e body => (runEffOp st e body, [])
  | .trackO t k => (trackOp st t k, [])
  | .stopO e => (stopOp e st, [])
  | .trigO t ty k nv => (st, triggerFired env st t ty k nv)

def applyROps (env : TgtEnv) (st : RState) : List ROp → RState × List Fire
  | [] => (st, [])
  | op :: rest =>
    let (st₁, f₁) := applyROp env st op
    let (st₂, f₂) := applyROps env st₁ rest
    (st₂, f₁ ++ f₂)

/-- The effect fired by `triggerEffect`: scheduler if present, else `run`. -/
def fireOf (st : RState) (e : Nat) : Fire :=
  if (getEff st e).hasSched then .schedF e else .runF e

end Reactivity

namespace Reactivity

/-- A concrete rest state with `shouldTrack = true` and an empty track
stack, used to exhibit counterexamples. -/
def stTrue : RState :=
  { tm := [], effs := [], runStack := [], shouldTrack := true, trackStack := [],
    depth := 0, trackOpBit := 1 }

/-- A state and dep witnessing `triggerEffects_computed_first`: effect 5 is
computed-backed, effects 3 and 4 are not; the computed effect fires first
even though it was added to the dep last. -/
def stW : RState :=
  { tm := [], effs :=
      [(3, { defaultEffD with active := true }),
       (4, { defaultEffD with active := true, hasSched := true }),
       (5, { defaultEffD with active := true, isComputed := true })],
    runStack := [], shouldTrack := true, trackStack := [], depth := 0, trackOpBit := 1 }

/-- The dep of slot `tk` exists and contains effect `e` (Bool form, for
decidable rest-state checks). -/
def slotHasB (st : RState) (tk : Nat × RKey) (e : Nat) : Bool :=
  match lookupTM st.tm tk with
  | some d => decide (e ∈ d.effects)
  | none => false

/-- Forward half of invariant I1: every effect recorded in a dep of the
target map carries that slot in its `deps` list. -/
def biMemA (st : RState) : Prop :=
  ∀ tk d, lookupTM st.tm tk = some d → ∀ e ∈ d.effects, tk ∈ getDeps st e

/-- Backward half of invariant I1: every slot in an effect's `deps` list
names an existing dep that contains the effect. -/
def biMemB (st : RState) : Prop :=
  ∀ e ed, lookupEff st.effs e = some ed →
    ∀ tk ∈ ed.deps, ∃ d, lookupTM st.tm tk = some d ∧ e ∈ d.effects

/-- Structural well-formedness, membership form (decidable, for rest
states): `deps` lists and dep sets have no duplicates, and both tables have
distinct keys. -/
def wfNodupM (st : RState) : Prop :=
  (∀ q ∈ st.effs, q.2.deps.Nodup) ∧ (∀ p ∈ st.tm, p.2.effects.Nodup)
  ∧ (st.tm.map (fun p => p.1)).Nodup ∧ (st.effs.map (fun q => q.1)).Nodup

/-- Structural well-formedness, lookup form (used by the mid-run
invariant). -/
def wfNodup (st : RState) : Prop :=
  (∀ e ed, lookupEff st.effs e = some ed → ed.deps.Nodup)
  ∧ (∀ tk d, lookupTM st.tm tk = some d → d.effects.Nodup)
  ∧ (st.tm.map (fun p => p.1)).Nodup ∧ (st.effs.map (fun q => q.1)).Nodup

/-- Every running effect has an entry in the effect table (it was pushed
only while `active`, and unknown ids are inactive). -/
def stackListed (st : RState) : Prop :=
  ∀ e ∈ st.runStack, (lookupEff st.effs e).isSome

/-- Marker bits can be set only at positions `1 .. min(depth, 30)`. -/
def highClear (st : RState) : Prop :=
  ∀ tk d, lookupTM st.tm tk = some d → ∀ i, (i = 0 ∨ st.depth < i ∨ 30 < i) →
    d.w.testBit i = false ∧ d.n.testBit i = false

/-- For every running effect at depth `i ≤ 30`, the bit at position `i`
(either marker) is set on exactly the slots in that effect's `deps` list. -/
def stackInv (st : RState) : Prop :=
  ∀ i f, 1 ≤ i → i ≤ st.depth → i ≤ 30 → st.runStack.get? (st.depth - i) = some f →
    ∀ tk d, lookupTM st.tm tk = some d →
      (tk ∉ getDeps st f → d.w.testBit i = false ∧ d.n.testBit i = false)
      ∧ (tk ∈ getDeps st f → d.w.testBit i = true ∨ d.n.testBit i = true)

/-- The full mid-run invariant of the tracking machinery. -/
def WF (st : RState) : Prop :=
  biMemA st ∧ biMemB st ∧ wfNodup st
  ∧ st.depth = st.runStack.length
  ∧ st.trackOpBit = 2 ^ st.depth
  ∧ st.runStack.Nodup
  ∧ stackListed st
  ∧ highClear st ∧ stackInv st

/-- The rest-state invariant (decidable): bidirectional membership, no
duplicates, empty run stack, depth 0, `trackOpBit = 1`, all marker bits
clear. -/
def RestWF (st : RState) : Prop :=
  (∀ p ∈ st.tm, ∀ e ∈ p.2.effects, p.1 ∈ getDeps st e)
  ∧ (∀ q ∈ st.effs, ∀ tk ∈ q.2.deps, slotHasB st tk q.1 = true)
  ∧ wfNodupM st
  ∧ st.runStack = [] ∧ st.depth = 0 ∧ st.trackOpBit = 1
  ∧ (∀ p ∈ st.tm, p.2.w = 0 ∧ p.2.n = 0)

instance (st : RState) : Decidable (RestWF st) := by
  unfold RestWF wfNodupM
  infer_instance

/-- Whether `finalizeDepMarkers` deletes the effect from the dep at slot
`tk` (evaluated against the map as it stands when the slot is visited;
with distinct slots this is the original map). -/
def delP (bit : Nat) (tm : List ((Nat × RKey) × DepD)) (tk : Nat × RKey) : Bool :=
  match lookupTM tm tk with
  | some d => decide (0 < d.w &&& bit) && ! decide (0 < d.n &&& bit)
  | none => false

/-- A fully stopped effect: inactive, absent from every dep of the target
map, and not on the run stack. -/
def gone (st : RState) (e : Nat) : Prop :=
  (getEff st e).active = false ∧ (∀ p ∈ st.tm, e ∉ p.2.effects) ∧ e ∉ st.runStack

def envC1 : TgtEnv := { isArr := fun _ => false, isMapT := fun _ => false }

def stC1 : RState :=
  { tm := [], effs := [(1, { defaultEffD with active := true })],
    runStack := [], shouldTrack := true, trackStack := [], depth := 0, trackOpBit := 1 }

def opsC1 : List ROp :=
  [.runO 1 (.track 0 (.str "x") .nil), .trigO 0 .set (some (.str "x")) 0]

def envC4 : TgtEnv := { isArr := fun _ => false, isMapT := fun _ => false }

def stC4 : RState :=
  { tm := [((0, .str "x"), ⟨[7], 0, 0⟩)],
    effs := [(7, { defaultEffD with active := true, deps := [(0, .str "x")] })],
    runStack := [], shouldTrack := true, trackStack := [], depth := 0, trackOpBit := 1 }

def opsC4 : List ROp :=
  [.trigO 0 .set (some (.str "x")) 0, .runO 7 (.track 0 (.str "x") .nil)]

end Reactivity

namespace DeferredC

/-!
Shallow embedding of `DeferredComputedRefImpl` (deferredComputed.ts): the
per-instance state captured by the constructor closure, the scheduler body,
`_get`, and the flush callback.  Values are modelled as `Nat` (the source
compares them only with `!==`). -/

/-- The instance state: `this.dep` presence, `_value`, `_dirty`,
`effect.active`, the `compareTarget`/`hasCompareTarget` pair (as an
`Option`), and the `scheduled` latch. -/
structure DCState where
  hasDep : Bool
  value : Nat
  dirty : Bool
  active : Bool
  compareTarget : Option Nat
  scheduled : Bool
deriving DecidableEq, Repr

/-- The scheduler body `(computedTrigger?: boolean) => ...`.  Returns the
updated state and, when a microtask flush is newly scheduled, the
`valueToCompare` captured by the enqueued callback.  (The synchronous
notification of chained deferred computeds acts on other instances and is
outside this single-instance state.) -/
def schedStep (st : DCState) (computedTrigger : Bool) : DCState × Option Nat :=
  if st.hasDep then
    if computedTrigger then
      ({ st with compareTarget := some st.value, dirty := true }, none)
    else if !st.scheduled then
      let valueToCompare := st.compareTarget.getD st.value
      ({ st with scheduled := true, compareTarget := none, dirty := true },
        some valueToCompare)
    else ({ st with dirty := true }, none)
  else ({ st with dirty := true }, none)

/-- `_get()`: recompute through the effect when dirty (the effect's run
yields `g`, the getter's current result), else return the cached value. -/
def dcGet (st : DCState) (g : Nat) : DCState × Nat :=
  if st.dirty then ({ st with dirty := false, value := g }, g)
  else (st, st.value)

/-- The flush callback enqueued by the scheduler:
`if (this.effect.active && this._get() !== valueToCompare)
triggerRefValue(this); scheduled = false`.  Returns the updated state and
whether `triggerRefValue` was called. -/
def flushStep (st : DCState) (g : Nat) (valueToCompare : Nat) : DCState × Bool :=
  let (st₁, notify) :=
    if st.active then
      let (st', v) := dcGet st g
      (st', decide (v ≠ valueToCompare))
    else (st, false)
  ({ st₁ with scheduled := false }, notify)

/-- A concrete deferred-computed instance state: has a dep, cached value 1,
dirty, active, no comparator snapshot, nothing scheduled. -/
def dcW : DCState :=
  { hasDep := true, value := 1, dirty := true, active := true,
    compareTarget := none, scheduled := false }

end DeferredC

namespace Sched

/-!
Shallow embedding of the job scheduler (scheduler.ts): `queueJob` with its
dedup window and binary-search insertion, the `comparator`, the sort in
`flushJobs`, and the main drain loop.  Jobs are identities (`Nat`); their
`id` / `pre` / `active` / `allowRecurse` fields, and the set of `queueJob`
calls a job performs while it runs, are given by an environment.  The
post-flush phase (`flushPostFlushCbs` and the re-drain it can cause) is
orthogonal to the in-queue ordering and is not modelled. -/

/-- The fields of the jobs and the `queueJob` calls each job performs when
invoked. -/
structure JEnv where
  jid : Nat → Option Nat
  jpre : Nat → Bool
  jactive : Nat → Bool
  jrecurse : Nat → Bool
  enq : Nat → List Nat

/-- The scheduler globals: `queue`, `flushIndex`, `isFlushing`, plus the
observable record of invocations in order. -/
structure SState where
  queue : List Nat
  flushIndex : Nat
  isFlushing : Bool
  invoked : List Nat
deriving DecidableEq, Repr

/-- `middleJobId < id` where `middleJobId = getId(queue[middle])` may be
`Infinity` (an absent id). -/
def idLt (mid : Option Nat) (id : Nat) : Bool :=
  match mid with
  | some m => decide (m < id)
  | none => false

/-- The binary-search loop of `findInsertionIndex`.  The first argument
bounds the number of iterations; since `end - start` shrinks at every step,
any bound of at least `end - start` (we pass the queue length) makes this
the source's unbounded `while` loop. -/
def fIILoop (env : JEnv) (q : List Nat) (id : Nat) : Nat → Nat → Nat → Nat
  | 0, s, _ => s
  | k + 1, s, e =>
    if s < e then
      let m := (s + e) / 2
      if idLt (env.jid (q.getD m 0)) id then fIILoop env q id k (m + 1) e
      else fIILoop env q id k s m
    else s

/-- `findInsertionIndex(id)`: search `[flushIndex + 1, queue.length)`. -/
def findInsertionIndex (env : JEnv) (st : SState) (id : Nat) : Nat :=
  fIILoop env st.queue id st.queue.length (st.flushIndex + 1) st.queue.length

/-- `queue.splice(pos, 0, j)`: JS splice clamps `pos` to the length, which
is what `take`/`drop` give. -/
def spliceIns (q : List Nat) (pos : Nat) (j : Nat) : List Nat :=
  q.take pos ++ j :: q.drop pos

/-- The start index of the dedup search in `queueJob`. -/
def dedupStart (env : JEnv) (st : SState) (j : Nat) : Nat :=
  if st.isFlushing ∧ env.jrecurse j then st.flushIndex + 1 else st.flushIndex

/-- `queueJob(job)`: dedup from `flushIndex` (or `flushIndex + 1` while
flushing for an `allowRecurse` job), then insert by id (append when the id
is absent).  (`queueFlush` only touches the pending-promise flags and is a
no-op while a flush is running.) -/
def queueJob (env : JEnv) (st : SState) (j : Nat) : SState :=
  if st.queue = [] ∨ j ∉ st.queue.drop (dedupStart env st j) then
    match env.jid j with
    | none => { st with queue := st.queue ++ [j] }
    | some id => { st with queue := spliceIns st.queue (findInsertionIndex env st id) j }
  else st

/-- The `comparator`: `getId(a) - getId(b)` with the pre tie-break at equal
defined ids.  Only the sign is consulted by `Array.prototype.sort`, and the
`Infinity - Infinity` (NaN) case behaves as 0 (leave relative order). -/
def compJ (env : JEnv) (a b : Nat) : Int :=
  match env.jid a, env.jid b with
  | some i, some j =>
    if i = j then
      if env.jpre a ∧ ¬ env.jpre b then -1
      else if env.jpre b ∧ ¬ env.jpre a then 1
      else 0
    else (i : Int) - (j : Int)
  | some _, none => -1
  | none, some _ => 1
  | none, none => 0

/-- Stable insertion used to model `queue.sort(comparator)` (JS sort is
stable: an element moves before an earlier one only on a strictly positive
comparison). -/
def insSorted (env : JEnv) (x : Nat) : List Nat → List Nat
  | [] => [x]
  | h :: t => if 0 < compJ env h x then x :: h :: t else h :: insSorted env x t

def sortJobs (env : JEnv) (l : List Nat) : List Nat :=
  l.foldl (fun acc x => insSorted env x acc) []

/-- One iteration of the drain loop of `flushJobs`: invoke
`queue[flushIndex]` when its `active !== false`, let it perform its
`queueJob` calls, then advance `flushIndex`. -/
def flushStep (env : JEnv) (st : SState) : SState :=
  if env.jactive (st.queue.getD st.flushIndex 0) then
    let st₁ := (env.enq (st.queue.getD st.flushIndex 0)).foldl (queueJob env)
      { st with invoked := st.invoked ++ [st.queue.getD st.flushIndex 0] }
    { st₁ with flushIndex := st₁.flushIndex + 1 }
  else { st with flushIndex := st.flushIndex + 1 }

/-- The drain loop of `flushJobs`: iterate `flushStep` until the queue is
exhausted (fuel bounds the number of iterations; every theorem below holds
for every fuel). -/
def flushLoop (env : JEnv) : Nat → SState → SState
  | 0, st => st
  | fuel + 1, st =>
    if st.flushIndex < st.queue.length then flushLoop env fuel (flushStep env st) else st

/-- `flushJobs`: sort the queue by the comparator, then drain from index 0
with `isFlushing` set. -/
def flushJobs (env : JEnv) (fuel : Nat) (queue : List Nat) : SState :=
  flushLoop env fuel
    { queue := sortJobs env queue, flushIndex := 0, isFlushing := true, invoked := [] }

/-- A two-job environment: job 0 (id 5) enqueues job 1 (id 1) while it
runs; both active, neither pre nor recursing. -/
def envC2 : JEnv :=
  { jid := fun j => if j = 0 then some 5 else some 1
    jpre := fun _ => false
    jactive := fun _ => true
    jrecurse := fun _ => false
    enq := fun j => if j = 0 then [1] else [] }

/-- A mid-flush state for the witness: queue `[9, 7]`, the drain at index
0, job 7 pending at index 1. -/
def envW8 : JEnv :=
  { jid := fun _ => none, jpre := fun _ => false, jactive := fun _ => true,
    jrecurse := fun _ => false, enq := fun _ => [] }

def stW8 : SState :=
  { queue := [9, 7], flushIndex := 0, isFlushing := true, invoked := [] }

/-- The jobs of scenario `J1{id 2}, J2{id 1, pre}, J3{id 1}` (none
enqueues anything). -/
def envS3 : JEnv :=
  { jid := fun j => if j = 1 then some 2 else if j = 2 then some 1
      else if j = 3 then some 1 else none
    jpre := fun j => j == 2
    jactive := fun _ => true
    jrecurse := fun _ => false
    enq := fun _ => [] }

end Sched

namespace Reactivity

theorem lookupTM_updTM_self (tm : List ((Nat × RKey) × DepD)) (tk : Nat × RKey)
    (f : DepD → DepD) : lookupTM (updTM tm tk f) tk = (lookupTM tm tk).map f := by
  induction tm with
  | nil => rfl
  | cons p rest ih =>
    unfold updTM at ih ⊢
    by_cases h : p.1 = tk
    · simp [lookupTM, h]
    · simp only [List.map_cons, if_neg h]
      rw [lookupTM, lookupTM, if_neg h, if_neg h]
      exact ih

theorem lookupTM_updTM_ne (tm : List ((Nat × RKey) × DepD)) (tk tk' : Nat × RKey)
    (f : DepD → DepD) (h : tk' ≠ tk) :
    lookupTM (updTM tm tk f) tk' = lookupTM tm tk' := by
  induction tm with
  | nil => rfl
  | cons p rest ih =>
    unfold updTM at ih ⊢
    by_cases hp : p.1 = tk
    · simp only [List.map_cons, if_pos hp]
      rw [lookupTM, lookupTM, if_neg (by rw [hp]; exact fun hh => h hh.symm), if_neg (hp ▸ fun hh => h hh.symm)]
      exact ih
    · simp only [List.map_cons, if_neg hp]
      rw [lookupTM, lookupTM]
      by_cases hp' : p.1 = tk'
      · simp [hp']
      · rw [if_neg hp', if_neg hp']
        exact ih

theorem lookupTM_mem (tm : List ((Nat × RKey) × DepD)) (tk : Nat × RKey) (d : DepD)
    (h : lookupTM tm tk = some d) : (tk, d) ∈ tm := by
  induction tm with
  | nil => cases h
  | cons p rest ih =>
    rw [lookupTM] at h
    split at h
    · rename_i hp
      cases h
      subst hp
      rw [Prod.mk.eta]
      exact List.mem_cons_self p rest
    · exact List.mem_cons_of_mem _ (ih h)

theorem keys_updTM (tm : List ((Nat × RKey) × DepD)) (tk : Nat × RKey) (f : DepD → DepD) :
    (updTM tm tk f).map (fun p => p.1) = tm.map (fun p => p.1) := by
  unfold updTM
  rw [List.map_map]
  apply List.map_congr_left
  intro p _
  by_cases h : p.1 = tk <;> simp [h]

theorem lookupTM_eq_none (tm : List ((Nat × RKey) × DepD)) (tk : Nat × RKey) :
    lookupTM tm tk = none ↔ tk ∉ tm.map (fun p => p.1) := by
  induction tm with
  | nil => simp [lookupTM]
  | cons p rest ih =>
    rw [lookupTM]
    by_cases h : p.1 = tk
    · simp [h]
    · rw [if_neg h, ih]
      simp only [List.map_cons, List.mem_cons]
      constructor
      · intro h1 h2
        rcases h2 with h2 | h2
        · exact h h2.symm
        · exact h1 h2
      · intro h1 h2
        exact h1 (Or.inr h2)

theorem mem_lookupTM (tm : List ((Nat × RKey) × DepD)) (tk : Nat × RKey) (d : DepD)
    (hnd : (tm.map (fun p => p.1)).Nodup) (h : (tk, d) ∈ tm) :
    lookupTM tm tk = some d := by
  induction tm with
  | nil => cases h
  | cons p rest ih =>
    rw [List.map_cons, List.nodup_cons] at hnd
    rcases List.mem_cons.mp h with rfl | h'
    · rw [lookupTM, if_pos rfl]
    · rw [lookupTM]
      split
      · rename_i hp
        exfalso
        apply hnd.1
        rw [hp]
        exact List.mem_map.mpr ⟨(tk, d), h', rfl⟩
      · exact ih hnd.2 h'

theorem lookupEff_updEff_self (effs : List (Nat × EffD)) (e : Nat) (f : EffD → EffD) :
    lookupEff (updEff effs e f) e = (lookupEff effs e).map f := by
  induction effs with
  | nil => rfl
  | cons q rest ih =>
    unfold updEff at ih ⊢
    by_cases h : q.1 = e
    · simp [lookupEff, h]
    · simp only [List.map_cons, if_neg h]
      rw [lookupEff, lookupEff, if_neg h, if_neg h]
      exact ih

theorem lookupEff_updEff_ne (effs : List (Nat × EffD)) (e e' : Nat) (f : EffD → EffD)
    (h : e' ≠ e) : lookupEff (updEff effs e f) e' = lookupEff effs e' := by
  induction effs with
  | nil => rfl
  | cons q rest ih =>
    unfold updEff at ih ⊢
    by_cases hq : q.1 = e
    · simp only [List.map_cons, if_pos hq]
      rw [lookupEff, lookupEff, if_neg (hq ▸ fun hh => h hh.symm), if_neg (hq ▸ fun hh => h hh.symm)]
      exact ih
    · simp only [List.map_cons, if_neg hq]
      rw [lookupEff, lookupEff]
      by_cases hq' : q.1 = e'
      · simp [hq']
      · rw [if_neg hq', if_neg hq']
        exact ih

theorem lookupEff_mem (effs : List (Nat × EffD)) (e : Nat) (ed : EffD)
    (h : lookupEff effs e = some ed) : (e, ed) ∈ effs := by
  induction effs with
  | nil => cases h
  | cons q rest ih =>
    rw [lookupEff] at h
    split at h
    · rename_i hp
      cases h
      subst hp
      rw [Prod.mk.eta]
      exact List.mem_cons_self q rest
    · exact List.mem_cons_of_mem _ (ih h)

theorem keys_updEff (effs : List (Nat × EffD)) (e : Nat) (f : EffD → EffD) :
    (updEff effs e f).map (fun q => q.1) = effs.map (fun q => q.1) := by
  unfold updEff
  rw [List.map_map]
  apply List.map_congr_left
  intro q _
  by_cases h : q.1 = e <;> simp [h]

theorem mem_updEff (effs : List (Nat × EffD)) (e : Nat) (f : EffD → EffD) (q : Nat × EffD)
    (h : q ∈ updEff effs e f) :
    ∃ q₀ ∈ effs, q = if q₀.1 = e then (q₀.1, f q₀.2) else q₀ := by
  unfold updEff at h
  rcases List.mem_map.mp h with ⟨q₀, hq₀, hq⟩
  exact ⟨q₀, hq₀, hq.symm⟩

theorem mem_updTM (tm : List ((Nat × RKey) × DepD)) (tk : Nat × RKey) (f : DepD → DepD)
    (p : (Nat × RKey) × DepD) (h : p ∈ updTM tm tk f) :
    ∃ p₀ ∈ tm, p = if p₀.1 = tk then (p₀.1, f p₀.2) else p₀ := by
  unfold updTM at h
  rcases List.mem_map.mp h with ⟨p₀, hp₀, hp⟩
  exact ⟨p₀, hp₀, hp.symm⟩

theorem slotHasB_iff (st : RState) (tk : Nat × RKey) (e : Nat) :
    slotHasB st tk e = true ↔ ∃ d, lookupTM st.tm tk = some d ∧ e ∈ d.effects := by
  unfold slotHasB
  split
  · rename_i d hd
    simp [hd]
  · rename_i hd
    simp [hd]

theorem pos_and_two_pow_iff (w D : Nat) : 0 < w &&& 2 ^ D ↔ w.testBit D = true := by
  rw [Nat.and_two_pow]
  cases h : w.testBit D <;> simp [h, Nat.pos_pow_of_pos, Nat.two_pow_pos]

theorem RestWF_WF (st : RState) (h : RestWF st) : WF st := by
  obtain ⟨hA, hB, hnd, hstack, hdepth, hbit, hbits⟩ := h
  refine ⟨?_, ?_, ?_, ?_, ?_, ?_, ?_, ?_, ?_⟩
  · intro tk d hd e he
    exact hA (tk, d) (lookupTM_mem _ _ _ hd) e he
  · intro e ed hed tk htk
    exact (slotHasB_iff st tk e).mp (hB (e, ed) (lookupEff_mem _ _ _ hed) tk htk)
  · exact ⟨fun e ed hed => hnd.1 (e, ed) (lookupEff_mem _ _ _ hed),
      fun tk d hd => hnd.2.1 (tk, d) (lookupTM_mem _ _ _ hd),
      hnd.2.2.1, hnd.2.2.2⟩
  · rw [hstack, hdepth]
    rfl
  · rw [hdepth, hbit]
    rfl
  · rw [hstack]
    exact List.nodup_nil
  · intro e he
    rw [hstack] at he
    cases he
  · intro tk d hd i _
    have := hbits (tk, d) (lookupTM_mem _ _ _ hd)
    rw [this.1, this.2]
    simp
  · intro i f h1 h2
    rw [hdepth] at h2
    omega

theorem lookupTM_append_single (tm : List ((Nat × RKey) × DepD)) (tk₀ : Nat × RKey)
    (d₀ : DepD) (tk : Nat × RKey) :
    lookupTM (tm ++ [(tk₀, d₀)]) tk
      = match lookupTM tm tk with
        | some d => some d
        | none => if tk₀ = tk then some d₀ else none := by
  induction tm with
  | nil => simp [lookupTM]
  | cons p rest ih =>
    rw [List.cons_append, lookupTM, lookupTM]
    by_cases h : p.1 = tk
    · simp [h]
    · rw [if_neg h, if_neg h]
      exact ih

theorem markWas_lookup (bit : Nat) (ds : List (Nat × RKey)) :
    ∀ tm, ds.Nodup → ∀ tk,
      lookupTM (markWas bit ds tm) tk
        = (lookupTM tm tk).map (fun d => if tk ∈ ds then { d with w := d.w ||| bit } else d) := by
  induction ds with
  | nil =>
    intro tm _ tk
    rw [markWas]
    cases h : lookupTM tm tk <;> simp [h]
  | cons tk₀ rest ih =>
    intro tm hnd tk
    rw [List.nodup_cons] at hnd
    rw [markWas, ih _ hnd.2 tk]
    by_cases h : tk = tk₀
    · subst h
      rw [lookupTM_updTM_self]
      rcases lookupTM tm tk with _ | d
      · rfl
      · simp [hnd.1, List.mem_cons]
    · rw [lookupTM_updTM_ne _ _ _ _ h]
      rcases lookupTM tm tk with _ | d
      · rfl
      · simp only [Option.map_some']
        by_cases hr : tk ∈ rest <;> simp [hr, List.mem_cons, h]

theorem markWas_keys (bit : Nat) (ds : List (Nat × RKey)) :
    ∀ tm, (markWas bit ds tm).map (fun p => p.1) = tm.map (fun p => p.1) := by
  induction ds with
  | nil => intro tm; rfl
  | cons tk₀ rest ih =>
    intro tm
    rw [markWas, ih, keys_updTM]

theorem delFromDeps_lookup (e : Nat) (ds : List (Nat × RKey)) :
    ∀ tm, ds.Nodup → ∀ tk,
      lookupTM (delFromDeps e ds tm) tk
        = (lookupTM tm tk).map (fun d => if tk ∈ ds then delEff e d else d) := by
  induction ds with
  | nil =>
    intro tm _ tk
    rw [delFromDeps]
    cases h : lookupTM tm tk <;> simp [h]
  | cons tk₀ rest ih =>
    intro tm hnd tk
    rw [List.nodup_cons] at hnd
    rw [delFromDeps, ih _ hnd.2 tk]
    by_cases h : tk = tk₀
    · subst h
      rw [lookupTM_updTM_self]
      rcases lookupTM tm tk with _ | d
      · rfl
      · simp [hnd.1, List.mem_cons]
    · rw [lookupTM_updTM_ne _ _ _ _ h]
      rcases lookupTM tm tk with _ | d
      · rfl
      · simp only [Option.map_some']
        by_cases hr : tk ∈ rest <;> simp [hr, List.mem_cons, h]

theorem delFromDeps_keys (e : Nat) (ds : List (Nat × RKey)) :
    ∀ tm, (delFromDeps e ds tm).map (fun p => p.1) = tm.map (fun p => p.1) := by
  induction ds with
  | nil => intro tm; rfl
  | cons tk₀ rest ih =>
    intro tm
    rw [delFromDeps, ih, keys_updTM]

theorem delP_congr (bit : Nat) (tm₁ tm₂ : List ((Nat × RKey) × DepD)) (tk : Nat × RKey)
    (h : lookupTM tm₁ tk = lookupTM tm₂ tk) : delP bit tm₁ tk = delP bit tm₂ tk := by
  unfold delP
  rw [h]

theorem finSweep_spec (e : Nat) (bit : Nat) (ds : List (Nat × RKey)) :
    ∀ tm, ds.Nodup → (∀ tk ∈ ds, (lookupTM tm tk).isSome) →
      (finSweep e bit ds tm).1 = ds.filter (fun tk => ! delP bit tm tk)
      ∧ (∀ tk, lookupTM (finSweep e bit ds tm).2 tk
          = (lookupTM tm tk).map (fun d =>
              if tk ∈ ds then finUpd e bit (delP bit tm tk) d else d))
      ∧ ((finSweep e bit ds tm).2).map (fun p => p.1) = tm.map (fun p => p.1) := by
  induction ds with
  | nil =>
    intro tm _ _
    refine ⟨rfl, ?_, rfl⟩
    intro tk
    rw [finSweep]
    cases h : lookupTM tm tk <;> simp [h]
  | cons tk₀ rest ih =>
    intro tm hnd hsome
    rw [List.nodup_cons] at hnd
    rcases hl : lookupTM tm tk₀ with _ | d
    · exact absurd (hsome tk₀ (List.mem_cons_self _ _)) (by simp [hl])
    · have hdel : delP bit tm tk₀ = (decide (0 < d.w &&& bit) && ! decide (0 < d.n &&& bit)) := by
        unfold delP
        rw [hl]
      have hfs : finSweep e bit (tk₀ :: rest) tm
          = (if delP bit tm tk₀
              then (finSweep e bit rest (updTM tm tk₀ (finUpd e bit (delP bit tm tk₀)))).1
              else tk₀ :: (finSweep e bit rest
                (updTM tm tk₀ (finUpd e bit (delP bit tm tk₀)))).1,
             (finSweep e bit rest (updTM tm tk₀ (finUpd e bit (delP bit tm tk₀)))).2) := by
        rw [hdel]
        simp only [finSweep, hl]
      have hupd : ∀ tk', lookupTM (updTM tm tk₀ (finUpd e bit (delP bit tm tk₀))) tk'
          = if tk' = tk₀ then some (finUpd e bit (delP bit tm tk₀) d)
            else lookupTM tm tk' := by
        intro tk'
        by_cases h : tk' = tk₀
        · subst h
          rw [if_pos rfl, lookupTM_updTM_self, hl]
          rfl
        · rw [if_neg h, lookupTM_updTM_ne _ _ _ _ h]
      have hsome' : ∀ tk ∈ rest,
          (lookupTM (updTM tm tk₀ (finUpd e bit (delP bit tm tk₀))) tk).isSome := by
        intro tk htk
        rw [hupd tk, if_neg (fun hh => hnd.1 (by rw [← hh]; exact htk))]
        exact hsome tk (List.mem_cons_of_mem _ htk)
      have hdelP' : ∀ tk ∈ rest,
          delP bit (updTM tm tk₀ (finUpd e bit (delP bit tm tk₀))) tk = delP bit tm tk := by
        intro tk htk
        apply delP_congr
        rw [hupd tk, if_neg (fun hh => hnd.1 (by rw [← hh]; exact htk))]
      obtain ⟨ihK, ihL, ihKeys⟩ := ih _ hnd.2 hsome'
      rw [hfs]
      refine ⟨?_, ?_, by rw [ihKeys, keys_updTM]⟩
      · rw [ihK, List.filter_congr (fun tk htk => by rw [hdelP' tk htk]), List.filter_cons]
        rcases hb : delP bit tm tk₀ with _ | _ <;> simp [hb]
      · intro tk
        rw [ihL tk, hupd tk]
        by_cases h : tk = tk₀
        · subst h
          rw [if_pos rfl, hl]
          have hmr : tk ∉ rest := hnd.1
          simp [hmr, List.mem_cons]
        · rw [if_neg h]
          rcases hlt : lookupTM tm tk with _ | dd
          · rfl
          · simp only [Option.map_some']
            by_cases hr : tk ∈ rest
            · simp [hr, List.mem_cons, h, hdelP' tk hr]
            · simp [hr, List.mem_cons, h]

theorem getDeps_sub (st : RState) (hB : biMemB st) (e : Nat) :
    ∀ tk ∈ getDeps st e, ∃ d, lookupTM st.tm tk = some d ∧ e ∈ d.effects := by
  intro tk htk
  unfold getDeps getEff at htk
  rcases hl : lookupEff st.effs e with _ | ed
  · rw [hl] at htk
    cases htk
  · rw [hl] at htk
    exact hB e ed hl tk htk

theorem getDeps_nodup (st : RState) (hnd : wfNodup st) (e : Nat) :
    (getDeps st e).Nodup := by
  unfold getDeps getEff
  rcases hl : lookupEff st.effs e with _ | ed
  · exact List.nodup_nil
  · exact hnd.1 e ed hl

theorem getDeps_updEff_ne (st : RState) (e e' : Nat) (f : EffD → EffD) (h : e' ≠ e) :
    getDeps { st with effs := updEff st.effs e f } e' = getDeps st e' := by
  unfold getDeps getEff
  rw [lookupEff_updEff_ne _ _ _ _ h]

theorem getDeps_updEff_self (st : RState) (e : Nat) (f : EffD → EffD) :
    getDeps { st with effs := updEff st.effs e f } e
      = (((lookupEff st.effs e).map f).getD defaultEffD).deps := by
  unfold getDeps getEff
  rw [lookupEff_updEff_self]

/-- `WF` is preserved by any per-effect record update that does not change
the `deps` list (e.g. toggling `deferStop` or `active`). -/
theorem WF_updEff_depsEq (st : RState) (e : Nat) (f : EffD → EffD)
    (hf : ∀ ed, (f ed).deps = ed.deps) (hWF : WF st) :
    WF { st with effs := updEff st.effs e f } := by
  obtain ⟨hA, hB, hnd, hdep, hbit, hsd, hsl, hhc, hsi⟩ := hWF
  have hdeps : ∀ e', getDeps { st with effs := updEff st.effs e f } e' = getDeps st e' := by
    intro e'
    by_cases h : e' = e
    · subst h
      rw [getDeps_updEff_self]
      unfold getDeps getEff
      rcases lookupEff st.effs e' with _ | ed
      · rfl
      · simp [hf]
    · exact getDeps_updEff_ne st e e' f h
  refine ⟨?_, ?_, ?_, hdep, hbit, hsd, ?_, hhc, ?_⟩
  · intro tk d hd e' he'
    rw [hdeps e']
    exact hA tk d hd e' he'
  · intro e' ed' hed' tk htk
    by_cases h : e' = e
    · subst h
      rw [lookupEff_updEff_self] at hed'
      rcases hl : lookupEff st.effs e' with _ | ed
      · rw [hl] at hed'
        cases hed'
      · rw [hl] at hed'
        cases hed'
        rw [hf] at htk
        exact hB e' ed hl tk htk
    · rw [lookupEff_updEff_ne _ _ _ _ h] at hed'
      exact hB e' ed' hed' tk htk
  · refine ⟨?_, hnd.2.1, hnd.2.2.1, ?_⟩
    · intro e' ed' hed'
      by_cases h : e' = e
      · subst h
        rw [lookupEff_updEff_self] at hed'
        rcases hl : lookupEff st.effs e' with _ | ed
        · rw [hl] at hed'
          cases hed'
        · rw [hl] at hed'
          cases hed'
          rw [hf]
          exact hnd.1 e' ed hl
      · rw [lookupEff_updEff_ne _ _ _ _ h] at hed'
        exact hnd.1 e' ed' hed'
    · rw [keys_updEff]
      exact hnd.2.2.2
  · intro e' he'
    by_cases h : e' = e
    · subst h
      rw [lookupEff_updEff_self]
      have hh := hsl e' he'
      rcases hl : lookupEff st.effs e' with _ | ed
      · rw [hl] at hh
        simp at hh
      · rfl
    · rw [lookupEff_updEff_ne _ _ _ _ h]
      exact hsl e' he'
  · intro i fe h1 h2 h3 hget tk d hd
    rw [hdeps fe]
    exact hsi i fe h1 h2 h3 hget tk d hd

/-- `ensureSlot` preserves `WF`, and afterwards the slot exists. -/
theorem ensureSlot_WF (st : RState) (tk : Nat × RKey) (hWF : WF st) :
    WF (ensureSlot st tk) ∧ (lookupTM (ensureSlot st tk).tm tk).isSome := by
  obtain ⟨hA, hB, hnd, hdep, hbit, hsd, hsl, hhc, hsi⟩ := hWF
  unfold ensureSlot
  rcases hl : lookupTM st.tm tk with _ | d
  · have hfresh : tk ∉ st.tm.map (fun p => p.1) := (lookupTM_eq_none _ _).mp hl
    have hlook : ∀ tk', lookupTM (st.tm ++ [(tk, ⟨[], 0, 0⟩)]) tk'
        = match lookupTM st.tm tk' with
          | some d => some d
          | none => if tk = tk' then some ⟨[], 0, 0⟩ else none :=
      fun tk' => lookupTM_append_single st.tm tk ⟨[], 0, 0⟩ tk'
    constructor
    · refine ⟨?_, ?_, ?_, hdep, hbit, hsd, hsl, ?_, ?_⟩
      · intro tk' d' hd' e' he'
        rw [hlook tk'] at hd'
        split at hd'
        · rename_i d₀ h₀
          cases hd'
          exact hA tk' _ h₀ e' he'
        · split at hd'
          · cases hd'
            cases he'
          · cases hd'
      · intro e' ed' hed' tk' htk'
        obtain ⟨d₀, h₀, hm⟩ := hB e' ed' hed' tk' htk'
        refine ⟨d₀, ?_, hm⟩
        rw [hlook tk', h₀]
      · refine ⟨hnd.1, ?_, ?_, hnd.2.2.2⟩
        · intro tk' d' hd'
          rw [hlook tk'] at hd'
          split at hd'
          · rename_i d₀ h₀
            cases hd'
            exact hnd.2.1 tk' _ h₀
          · split at hd'
            · cases hd'
              exact List.nodup_nil
            · cases hd'
        · rw [List.map_append]
          simp only [List.map_cons, List.map_nil]
          rw [List.nodup_append]
          exact ⟨hnd.2.2.1, List.nodup_singleton _, by
            intro a ha hb
            simp only [List.mem_singleton] at hb
            subst hb
            exact hfresh ha⟩
      · intro tk' d' hd' i hi
        rw [hlook tk'] at hd'
        split at hd'
        · rename_i d₀ h₀
          cases hd'
          exact hhc tk' _ h₀ i hi
        · split at hd'
          · cases hd'
            simp [Nat.zero_testBit]
          · cases hd'
      · intro i fe h1 h2 h3 hget tk' d' hd'
        rw [hlook tk'] at hd'
        split at hd'
        · rename_i d₀ h₀
          cases hd'
          exact hsi i fe h1 h2 h3 hget tk' _ h₀
        · split at hd'
          · rename_i hnone heq
            cases hd'
            subst heq
            constructor
            · intro _
              simp [Nat.zero_testBit]
            · intro hmem
              obtain ⟨d₀, h₀, _⟩ := getDeps_sub st hB fe tk hmem
              rw [h₀] at hnone
              cases hnone
          · cases hd'
    · rw [hlook tk, hl, if_pos rfl]
      rfl
  · exact ⟨⟨hA, hB, hnd, hdep, hbit, hsd, hsl, hhc, hsi⟩, by rw [hl]; rfl⟩

theorem activeEffect_get0 (st : RState) (e : Nat) (hae : activeEffect st = some e) :
    st.runStack.get? 0 = some e ∧ e ∈ st.runStack ∧ 1 ≤ st.runStack.length := by
  unfold activeEffect at hae
  rcases hs : st.runStack with _ | ⟨h, t⟩
  · rw [hs] at hae
    cases hae
  · rw [hs] at hae
    simp only [List.head?_cons, Option.some_inj] at hae
    subst hae
    exact ⟨rfl, List.mem_cons_self _ _, by simp⟩

/-- Core preservation lemma for the subscription performed by
`trackEffects` (`dep.add(activeEffect); activeEffect.deps.push(dep)`),
stated for any resulting state `F` whose target map agrees with `st`
except at the subscribed slot, whose new dep value `dnew` appends the
effect and whose marker bits changed at most at the current depth — and
at the current depth carry a set marker whenever the running effect is at
a marker level. -/
theorem subscribe_like_WF (st F : RState) (tk : Nat × RKey) (e : Nat) (d dnew : DepD)
    (hWF : WF st)
    (hld : lookupTM st.tm tk = some d)
    (hae : activeEffect st = some e)
    (he_out : e ∉ d.effects)
    (htk_out : tk ∉ getDeps st e)
    (hFeffs : F.effs = updEff st.effs e (fun ed => { ed with deps := ed.deps ++ [tk] }))
    (hFlook : ∀ tk', lookupTM F.tm tk'
        = if tk' = tk then some dnew else lookupTM st.tm tk')
    (hFkeys : F.tm.map (fun p => p.1) = st.tm.map (fun p => p.1))
    (hFstack : F.runStack = st.runStack) (hFdepth : F.depth = st.depth)
    (hFbit : F.trackOpBit = st.trackOpBit)
    (heff_new : dnew.effects = d.effects ++ [e])
    (hbits_ne : ∀ i, (i ≠ st.depth ∨ 30 < st.depth) →
        (dnew.w.testBit i = d.w.testBit i ∧ dnew.n.testBit i = d.n.testBit i))
    (hbitD : ∀ i, 1 ≤ i → i ≤ st.depth → i ≤ 30 →
        st.runStack.get? (st.depth - i) = some e →
        dnew.w.testBit i = true ∨ dnew.n.testBit i = true) :
    WF F := by
  obtain ⟨hA, hB, hnd, hdep, hbit, hsd, hsl, hhc, hsi⟩ := hWF
  obtain ⟨hget0, hmem, hlen⟩ := activeEffect_get0 st e hae
  have hel : (lookupEff st.effs e).isSome := hsl e hmem
  rcases hedl : lookupEff st.effs e with _ | ed
  · rw [hedl] at hel
    cases hel
  have hgde : getDeps st e = ed.deps := by
    unfold getDeps getEff
    rw [hedl]
    rfl
  -- deps of effects in F
  have hdepsF : ∀ e', getDeps F e'
      = if e' = e then getDeps st e ++ [tk] else getDeps st e' := by
    intro e'
    by_cases h : e' = e
    · subst h
      unfold getDeps getEff
      rw [hFeffs, lookupEff_updEff_self, hedl, if_pos rfl]
      simp [hgde]
    · unfold getDeps getEff
      rw [hFeffs, lookupEff_updEff_ne _ _ _ _ h, if_neg h]
  refine ⟨?_, ?_, ?_, ?_, ?_, ?_, ?_, ?_, ?_⟩
  · -- biMemA
    intro tk' d' hd' e' he'
    rw [hFlook tk'] at hd'
    rw [hdepsF e']
    by_cases h : tk' = tk
    · subst h
      rw [if_pos rfl] at hd'
      cases hd'
      rw [heff_new] at he'
      rcases List.mem_append.mp he' with h1 | h1
      · have he'ne : e' ≠ e := fun hh => he_out (hh ▸ h1)
        rw [if_neg he'ne]
        exact hA tk' d hld e' h1
      · simp only [List.mem_singleton] at h1
        subst h1
        rw [if_pos rfl]
        exact List.mem_append_right _ (List.mem_singleton_self _)
    · rw [if_neg h] at hd'
      have := hA tk' d' hd' e' he'
      by_cases h2 : e' = e
      · rw [if_pos h2]
        subst h2
        exact List.mem_append_left _ this
      · rw [if_neg h2]
        exact this
  · -- biMemB
    intro e' ed' hed' tk' htk'
    rw [hFeffs] at hed'
    by_cases h : e' = e
    · subst h
      rw [lookupEff_updEff_self, hedl] at hed'
      cases hed'
      simp only [] at htk'
      rcases List.mem_append.mp htk' with h1 | h1
      · obtain ⟨d₀, h₀, hm⟩ := hB e' ed hedl tk' h1
        have hne : tk' ≠ tk := by
          intro hh
          subst hh
          exact htk_out (hgde ▸ h1)
        refine ⟨d₀, ?_, hm⟩
        rw [hFlook tk', if_neg hne, h₀]
      · simp only [List.mem_singleton] at h1
        subst h1
        refine ⟨dnew, ?_, ?_⟩
        · rw [hFlook tk', if_pos rfl]
        · rw [heff_new]
          exact List.mem_append_right _ (List.mem_singleton_self _)
    · rw [lookupEff_updEff_ne _ _ _ _ h] at hed'
      obtain ⟨d₀, h₀, hm⟩ := hB e' ed' hed' tk' htk'
      by_cases hne : tk' = tk
      · subst hne
        rw [hld] at h₀
        cases h₀
        refine ⟨dnew, ?_, ?_⟩
        · rw [hFlook tk', if_pos rfl]
        · rw [heff_new]
          exact List.mem_append_left _ hm
      · refine ⟨d₀, ?_, hm⟩
        rw [hFlook tk', if_neg hne, h₀]
  · -- wfNodup
    refine ⟨?_, ?_, by rw [hFkeys]; exact hnd.2.2.1, by rw [hFeffs, keys_updEff]; exact hnd.2.2.2⟩
    · intro e' ed' hed'
      rw [hFeffs] at hed'
      by_cases h : e' = e
      · subst h
        rw [lookupEff_updEff_self, hedl] at hed'
        cases hed'
        simp only []
        rw [List.nodup_append]
        refine ⟨hnd.1 e' ed hedl, List.nodup_singleton _, ?_⟩
        intro a ha hb
        simp only [List.mem_singleton] at hb
        subst hb
        exact htk_out (hgde ▸ ha)
      · rw [lookupEff_updEff_ne _ _ _ _ h] at hed'
        exact hnd.1 e' ed' hed'
    · intro tk' d' hd'
      rw [hFlook tk'] at hd'
      by_cases h : tk' = tk
      · subst h
        rw [if_pos rfl] at hd'
        cases hd'
        rw [heff_new, List.nodup_append]
        refine ⟨hnd.2.1 tk' d hld, List.nodup_singleton _, ?_⟩
        intro a ha hb
        simp only [List.mem_singleton] at hb
        subst hb
        exact he_out ha
      · rw [if_neg h] at hd'
        exact hnd.2.1 tk' d' hd'
  · rw [hFdepth, hFstack]
    exact hdep
  · rw [hFbit, hFdepth]
    exact hbit
  · rw [hFstack]
    exact hsd
  · intro e' he'
    rw [hFstack] at he'
    rw [hFeffs]
    by_cases h : e' = e
    · subst h
      rw [lookupEff_updEff_self, hedl]
      rfl
    · rw [lookupEff_updEff_ne _ _ _ _ h]
      exact hsl e' he'
  · -- highClear
    intro tk' d' hd' i hi
    rw [hFdepth] at hi
    rw [hFlook tk'] at hd'
    by_cases h : tk' = tk
    · subst h
      rw [if_pos rfl] at hd'
      cases hd'
      have hne : i ≠ st.depth ∨ 30 < st.depth := by
        rcases hi with h1 | h1 | h1
        · left
          omega
        · left
          omega
        · by_cases h2 : 30 < st.depth
          · right
            exact h2
          · left
            omega
      obtain ⟨hw, hn⟩ := hbits_ne i hne
      rw [hw, hn]
      exact hhc tk' d hld i hi
    · rw [if_neg h] at hd'
      exact hhc tk' d' hd' i hi
  · -- stackInv
    intro i f h1 h2 h3 hget tk' d' hd'
    rw [hFdepth] at h2 hget
    rw [hFstack] at hget
    rw [hFlook tk'] at hd'
    have hsi' := hsi i f h1 h2 h3 hget
    rw [hdepsF f]
    by_cases hf : f = e
    · subst hf
      rw [if_pos rfl]
      -- the running effect sits at exactly one stack position
      have hpos : st.depth - i < st.runStack.length := by
        rw [← hdep]
        omega
      have hieq : st.depth - i = 0 := by
        apply List.get?_inj hpos hsd
        rw [hget, hget0]
      by_cases h : tk' = tk
      · subst h
        rw [if_pos rfl] at hd'
        cases hd'
        constructor
        · intro hnin
          exact absurd (List.mem_append_right _ (List.mem_singleton_self _)) hnin
        · intro _
          exact hbitD i h1 h2 h3 hget
      · rw [if_neg h] at hd'
        have := hsi' tk' d' hd'
        constructor
        · intro hnin
          exact this.1 (fun hin => hnin (List.mem_append_left _ hin))
        · intro hin
          rcases List.mem_append.mp hin with h1' | h1'
          · exact this.2 h1'
          · simp only [List.mem_singleton] at h1'
            exact absurd h1' h
    · rw [if_neg hf]
      by_cases h : tk' = tk
      · subst h
        rw [if_pos rfl] at hd'
        cases hd'
        have hidep : i ≠ st.depth := by
          intro hh
          subst hh
          rw [Nat.sub_self] at hget
          rw [hget0] at hget
          cases hget
          exact hf rfl
        obtain ⟨hw, hn⟩ := hbits_ne i (Or.inl hidep)
        have := hsi' tk' d hld
        rw [hw, hn]
        exact this
      · rw [if_neg h] at hd'
        exact hsi' tk' d' hd'

/-- Setting the newly-tracked bit on a dep already in the running effect's
`deps` list preserves the invariant (the `wasTracked` re-track case of
`trackEffects`). -/
theorem nset_WF (st : RState) (tk : Nat × RKey) (e : Nat) (d : DepD)
    (hWF : WF st) (hld : lookupTM st.tm tk = some d) (hae : activeEffect st = some e)
    (hdle : st.depth ≤ 30) (htk_in : tk ∈ getDeps st e) :
    WF { st with tm := updTM st.tm tk (fun dd => { dd with n := dd.n ||| st.trackOpBit }) } := by
  obtain ⟨hA, hB, hnd, hdep, hbit, hsd, hsl, hhc, hhsi⟩ := hWF
  obtain ⟨hget0, hmem, hlen⟩ := activeEffect_get0 st e hae
  have hD1 : 1 ≤ st.depth := by
    rw [hdep]
    exact hlen
  have hlook : ∀ tk', lookupTM (updTM st.tm tk
      (fun dd => { dd with n := dd.n ||| st.trackOpBit })) tk'
      = if tk' = tk then some { d with n := d.n ||| st.trackOpBit }
        else lookupTM st.tm tk' := by
    intro tk'
    by_cases h : tk' = tk
    · subst h
      rw [if_pos rfl, lookupTM_updTM_self, hld]
      rfl
    · rw [if_neg h, lookupTM_updTM_ne _ _ _ _ h]
  refine ⟨?_, ?_, ?_, hdep, hbit, hsd, hsl, ?_, ?_⟩
  · intro tk' d' hd' e' he'
    rw [hlook tk'] at hd'
    by_cases h : tk' = tk
    · subst h
      rw [if_pos rfl] at hd'
      cases hd'
      exact hA tk' d hld e' he'
    · rw [if_neg h] at hd'
      exact hA tk' d' hd' e' he'
  · intro e' ed' hed' tk' htk'
    obtain ⟨d₀, h₀, hm⟩ := hB e' ed' hed' tk' htk'
    by_cases h : tk' = tk
    · subst h
      rw [hld] at h₀
      cases h₀
      exact ⟨{ d with n := d.n ||| st.trackOpBit },
        by rw [hlook tk', if_pos rfl], hm⟩
    · exact ⟨d₀, by rw [hlook tk', if_neg h]; exact h₀, hm⟩
  · refine ⟨hnd.1, ?_, by rw [keys_updTM]; exact hnd.2.2.1, hnd.2.2.2⟩
    intro tk' d' hd'
    rw [hlook tk'] at hd'
    by_cases h : tk' = tk
    · subst h
      rw [if_pos rfl] at hd'
      cases hd'
      exact hnd.2.1 tk' d hld
    · rw [if_neg h] at hd'
      exact hnd.2.1 tk' d' hd'
  · intro tk' d' hd' i hi
    dsimp only at hd' hi
    rw [hlook tk'] at hd'
    by_cases h : tk' = tk
    · subst h
      rw [if_pos rfl] at hd'
      cases hd'
      have hnd' : i ≠ st.depth := by
        rcases hi with h1 | h1 | h1
        · omega
        · omega
        · omega
      simp only [hbit, Nat.testBit_lor]
      rw [Nat.testBit_two_pow_of_ne (fun hh => hnd' hh.symm)]
      have := hhc tk' d hld i hi
      simp [this.1, this.2]
    · rw [if_neg h] at hd'
      exact hhc tk' d' hd' i hi
  · intro i f h1 h2 h3 hget tk' d' hd'
    dsimp only at h2 hget hd'
    have hsif := hhsi i f h1 h2 h3 hget
    rw [hlook tk'] at hd'
    by_cases h : tk' = tk
    · subst h
      rw [if_pos rfl] at hd'
      cases hd'
      have hbits := hsif tk' d hld
      by_cases hid : i = st.depth
      · subst hid
        have hfe : f = e := by
          rw [Nat.sub_self, hget0] at hget
          cases hget
          rfl
        subst hfe
        constructor
        · intro hnin
          exact absurd htk_in hnin
        · intro _
          rcases hbits.2 htk_in with hw | hn
          · exact Or.inl hw
          · refine Or.inr ?_
            simp only [hbit, Nat.testBit_lor, hn]
            rfl
      · constructor
        · intro hnin
          obtain ⟨hw, hn⟩ := hbits.1 hnin
          refine ⟨hw, ?_⟩
          simp only [hbit, Nat.testBit_lor, hn]
          rw [Nat.testBit_two_pow_of_ne (fun hh => hid hh.symm)]
          rfl
        · intro hin
          rcases hbits.2 hin with hw | hn
          · exact Or.inl hw
          · refine Or.inr ?_
            simp only [hbit, Nat.testBit_lor, hn]
            rfl
    · rw [if_neg h] at hd'
      exact hsif tk' d' hd'

/-- `trackEffects` preserves the invariant. -/
theorem trackEffects_WF (st : RState) (tk : Nat × RKey) (hWF : WF st) :
    WF (trackEffectsOp st tk) := by
  have hWF' := hWF
  obtain ⟨hA, hB, hnd, hdep, hbit, hsd, hsl, hhc, hhsi⟩ := hWF'
  unfold trackEffectsOp
  rcases hae : activeEffect st with _ | e
  · exact hWF
  rcases hld : lookupTM st.tm tk with _ | d
  · exact hWF
  dsimp only
  obtain ⟨hget0, hmem, hlen⟩ := activeEffect_get0 st e hae
  have hD1 : 1 ≤ st.depth := by
    rw [hdep]
    exact hlen
  have hposition : ∀ i, 1 ≤ i → i ≤ st.depth →
      st.runStack.get? (st.depth - i) = some e → i = st.depth := by
    intro i hi1 hi2 hg
    have hpos : st.depth - i < st.runStack.length := by
      rw [← hdep]
      omega
    have := List.get?_inj hpos hsd (hg.trans hget0.symm)
    omega
  by_cases hdle : st.depth ≤ maxMarkerBits
  · rw [if_pos hdle]
    by_cases hnewb : newTracked st d
    · rw [if_neg (not_not_intro hnewb)]
      exact hWF
    · rw [if_pos hnewb]
      have hsiD := hhsi st.depth e hD1 (le_refl _) hdle
        (by simpa using hget0) tk d hld
      by_cases hwasb : wasTracked st d
      · rw [if_neg (not_not_intro hwasb)]
        have htk_in : tk ∈ getDeps st e := by
          by_contra hco
          obtain ⟨hw, _⟩ := hsiD.1 hco
          unfold wasTracked at hwasb
          rw [hbit, pos_and_two_pow_iff] at hwasb
          rw [hwasb] at hw
          cases hw
        exact nset_WF st tk e d hWF hld hae hdle htk_in
      · rw [if_pos hwasb]
        have hwbit : d.w.testBit st.depth = false := by
          unfold wasTracked at hwasb
          rw [hbit, pos_and_two_pow_iff] at hwasb
          simpa using hwasb
        have hnbit : d.n.testBit st.depth = false := by
          unfold newTracked at hnewb
          rw [hbit, pos_and_two_pow_iff] at hnewb
          simpa using hnewb
        have htk_out : tk ∉ getDeps st e := by
          intro hco
          rcases hsiD.2 hco with hw | hn
          · rw [hwbit] at hw
            cases hw
          · rw [hnbit] at hn
            cases hn
        have he_out : e ∉ d.effects := by
          intro hco
          exact htk_out (hA tk d hld e hco)
        have he_out' : e ∉ (({ d with n := d.n ||| st.trackOpBit } : DepD)).effects := he_out
        apply subscribe_like_WF st _ tk e d
          (addEff e { d with n := d.n ||| st.trackOpBit }) hWF hld hae he_out htk_out
        · rfl
        · intro tk'
          by_cases h : tk' = tk
          · subst h
            rw [if_pos rfl]
            unfold subscribe
            simp only []
            rw [lookupTM_updTM_self, lookupTM_updTM_self, hld]
            rfl
          · rw [if_neg h]
            unfold subscribe
            simp only []
            rw [lookupTM_updTM_ne _ _ _ _ h, lookupTM_updTM_ne _ _ _ _ h]
        · unfold subscribe
          simp only []
          rw [keys_updTM, keys_updTM]
        · rfl
        · rfl
        · rfl
        · unfold addEff
          rw [if_neg he_out']
        · intro i hi
          unfold addEff
          rw [if_neg he_out']
          simp only []
          constructor
          · trivial
          · rcases hi with hi | hi
            · rw [hbit]
              simp only [Nat.testBit_lor]
              rw [Nat.testBit_two_pow_of_ne (fun hh => hi hh.symm)]
              simp
            · unfold maxMarkerBits at hdle
              omega
        · intro i hi1 hi2 hi3 hg
          have := hposition i hi1 hi2 hg
          subst this
          refine Or.inr ?_
          unfold addEff
          rw [if_neg he_out']
          simp [hbit, Nat.testBit_lor, Nat.testBit_two_pow_self]
  · rw [if_neg hdle]
    by_cases hmemb : e ∈ d.effects
    · rw [if_neg (not_not_intro hmemb)]
      exact hWF
    · rw [if_pos hmemb]
      have htk_out : tk ∉ getDeps st e := by
        intro hco
        obtain ⟨d₀, h₀, he₀⟩ := getDeps_sub st hB e tk hco
        rw [hld] at h₀
        cases h₀
        exact hmemb he₀
      apply subscribe_like_WF st _ tk e d (addEff e d) hWF hld hae hmemb htk_out
      · rfl
      · intro tk'
        by_cases h : tk' = tk
        · subst h
          rw [if_pos rfl]
          unfold subscribe
          simp only []
          rw [lookupTM_updTM_self, hld]
          rfl
        · rw [if_neg h]
          unfold subscribe
          simp only []
          rw [lookupTM_updTM_ne _ _ _ _ h]
      · unfold subscribe
        simp only []
        rw [keys_updTM]
      · rfl
      · rfl
      · rfl
      · unfold addEff
        rw [if_neg hmemb]
      · intro i _
        unfold addEff
        rw [if_neg hmemb]
        exact ⟨rfl, rfl⟩
      · intro i hi1 hi2 hi3 hg
        have := hposition i hi1 hi2 hg
        unfold maxMarkerBits at hdle
        omega

/-- `track` preserves the invariant. -/
theorem trackOp_WF (st : RState) (t : Nat) (k : RKey) (hWF : WF st) :
    WF (trackOp st t k) := by
  unfold trackOp
  split
  · exact trackEffects_WF _ _ (ensureSlot_WF st (t, k) hWF).1
  · exact hWF

end Reactivity

namespace Reactivity

/-- Claim C3 (counterexample): starting from `shouldTrack = true` with an
empty track stack, `pauseTracking(); enableTracking(); resetTracking()`
leaves `shouldTrack = false`, not the initial value `true`: `resetTracking`
pops the value saved by `enableTracking` (which is `false`, the value in
force during the pause), not the value from before the sequence. -/
theorem pause_enable_reset_not_roundtrip :
    ¬ ((resetTrackingOp (enableTrackingOp (pauseTrackingOp stTrue))).shouldTrack
        = stTrue.shouldTrack) := by
  decide

/-- Claim C3 (amended): for every initial state, the sequence
`pauseTracking(); enableTracking(); resetTracking()` leaves `shouldTrack =
false` (the value saved by `enableTracking`); one further `resetTracking`
restores both `shouldTrack` and the track stack to their values from before
the sequence. -/
theorem pause_enable_reset_spec (st : RState) :
    (resetTrackingOp (enableTrackingOp (pauseTrackingOp st))).shouldTrack = false
    ∧ (resetTrackingOp (resetTrackingOp (enableTrackingOp (pauseTrackingOp st)))).shouldTrack
        = st.shouldTrack
    ∧ (resetTrackingOp (resetTrackingOp (enableTrackingOp (pauseTrackingOp st)))).trackStack
        = st.trackStack := by
  refine ⟨rfl, rfl, rfl⟩

/-- Claim C10: calling `resetTracking()` with an empty tracking stack sets
`shouldTrack` to `true` regardless of its previous value (`pop()` yields
`undefined`, and `last === undefined ? true : last` selects `true`). -/
theorem resetTracking_empty_stack (st : RState) (h : st.trackStack = []) :
    (resetTrackingOp st).shouldTrack = true := by
  cases st with
  | mk tm effs runStack shouldTrack trackStack depth trackOpBit =>
    subst h
    rfl

/-- Witness for `resetTracking_empty_stack` at a concrete state with
`shouldTrack = false`. -/
theorem resetTracking_empty_stack_witness :
    ({ stTrue with shouldTrack := false } : RState).trackStack = []
    ∧ (resetTrackingOp { stTrue with shouldTrack := false }).shouldTrack = true :=
  ⟨rfl, resetTracking_empty_stack { stTrue with shouldTrack := false } rfl⟩

theorem triggerEffectOp_eq_some (st : RState) (e : Nat)
    (h : activeEffect st ≠ some e ∨ (getEff st e).allowRecurse = true) :
    triggerEffectOp st e = some (fireOf st e) := by
  unfold triggerEffectOp fireOf
  rw [if_pos]
  exact h

theorem filterMap_fire_eq (st : RState) (c : Nat → Bool) (l : List Nat)
    (h : ∀ e ∈ l, triggerEffectOp st e = some (fireOf st e)) :
    (l.filterMap fun e => if c e then triggerEffectOp st e else none)
      = (l.filter c).map (fireOf st) := by
  induction l with
  | nil => rfl
  | cons x xs ih =>
    have hx := h x (List.mem_cons_self _ _)
    have ih' := ih (fun e he => h e (List.mem_cons_of_mem _ he))
    by_cases hc : c x
    · simp [List.filterMap_cons, List.filter_cons, hc, hx, ih']
    · simp [List.filterMap_cons, List.filter_cons, hc, ih']

/-- Claim C5: on a dep whose effects all pass the recursion guard of
`triggerEffect` (none of them is the non-recursing current `activeEffect`),
one `triggerEffects` call fires every effect with a `computed`
back-reference, in dep order, strictly before any effect without one. -/
theorem triggerEffects_computed_first (st : RState) (d : DepD)
    (hfire : ∀ e ∈ d.effects,
      activeEffect st ≠ some e ∨ (getEff st e).allowRecurse = true) :
    triggerEffectsOp st d.effects =
      (d.effects.filter (fun e => (getEff st e).isComputed)).map (fireOf st)
      ++ (d.effects.filter (fun e => !(getEff st e).isComputed)).map (fireOf st) := by
  have h : ∀ e ∈ d.effects, triggerEffectOp st e = some (fireOf st e) :=
    fun e he => triggerEffectOp_eq_some st e (hfire e he)
  unfold triggerEffectsOp
  rw [filterMap_fire_eq st _ _ h, filterMap_fire_eq st _ _ h]

theorem triggerEffects_computed_first_witness :
    (∀ e ∈ ([3, 4, 5] : List Nat),
        activeEffect stW ≠ some e ∨ (getEff stW e).allowRecurse = true)
    ∧ triggerEffectsOp stW ([3, 4, 5] : List Nat) =
        (([3, 4, 5] : List Nat).filter (fun e => (getEff stW e).isComputed)).map (fireOf stW)
        ++ (([3, 4, 5] : List Nat).filter (fun e => !(getEff stW e).isComputed)).map (fireOf stW) :=
  ⟨by decide, triggerEffects_computed_first stW ⟨[3, 4, 5], 0, 0⟩ (by decide)⟩

theorem filterMap_guard_eq_map_filter {α β : Type} (p : α → Prop) [DecidablePred p]
    (f : α → β) (l : List α) :
    (l.filterMap fun x => if p x then some (f x) else none)
      = (l.filter (fun x => decide (p x))).map f := by
  induction l with
  | nil => rfl
  | cons x xs ih =>
    by_cases hp : p x
    · simp [List.filterMap_cons, List.filter_cons, hp, ih]
    · simp [List.filterMap_cons, List.filter_cons, hp, ih]

theorem fire_mem_of_mem_triggerEffects (st : RState) (l : List Nat) (f : Fire)
    (hf : f ∈ triggerEffectsOp st l) : f.eff ∈ l := by
  unfold triggerEffectsOp at hf
  rcases List.mem_append.mp hf with h | h <;>
  · rcases List.mem_filterMap.mp h with ⟨e, he, heq⟩
    split at heq
    · have : f = fireOf st e := by
        unfold triggerEffectOp at heq
        split at heq
        · exact (Option.some_inj.mp heq).symm
        · exact absurd heq (by simp)
      subst this
      unfold fireOf
      split <;> exact he
    · exact absurd heq (by simp)

theorem mem_dedupL_aux (l : List Nat) (x : Nat) :
    ∀ acc, x ∈ l.foldl (fun acc y => if y ∈ acc then acc else acc ++ [y]) acc →
      x ∈ acc ∨ x ∈ l := by
  induction l with
  | nil => exact fun acc h => Or.inl h
  | cons y ys ih =>
    intro acc h
    rcases ih _ h with h' | h'
    · by_cases hy : y ∈ acc
      · simp only [if_pos hy] at h'
        exact Or.inl h'
      · simp only [if_neg hy, List.mem_append, List.mem_singleton] at h'
        rcases h' with h' | h'
        · exact Or.inl h'
        · exact Or.inr (by simp [h'])
    · exact Or.inr (List.mem_cons_of_mem _ h')

theorem mem_dedupL (l : List Nat) (x : Nat) (h : x ∈ dedupL l) : x ∈ l := by
  rcases mem_dedupL_aux l x [] h with h' | h'
  · cases h'
  · exact h'

theorem mem_flattenDeps_aux (deps : List (Option DepD)) (x : Nat) :
    ∀ acc, x ∈ deps.foldl (fun acc od =>
        match od with
        | some d => acc ++ d.effects
        | none => acc) acc →
      x ∈ acc ∨ ∃ d, some d ∈ deps ∧ x ∈ d.effects := by
  induction deps with
  | nil => exact fun acc h => Or.inl h
  | cons od rest ih =>
    intro acc h
    rcases ih _ h with h' | ⟨d, hd, hx⟩
    · cases od with
      | none => exact Or.inl h'
      | some d =>
        rcases List.mem_append.mp h' with h'' | h''
        · exact Or.inl h''
        · exact Or.inr ⟨d, by simp, h''⟩
    · exact Or.inr ⟨d, List.mem_cons_of_mem _ hd, hx⟩

theorem fired_branch_cover (st : RState) (deps : List (Option DepD)) (f : Fire)
    (hf : f ∈ (if deps.length = 1 then
        match deps with
        | [some d] => triggerEffectsOp st d.effects
        | _ => []
      else triggerEffectsOp st (dedupL (deps.foldl (fun acc od =>
        match od with
        | some d => acc ++ d.effects
        | none => acc) [])))) :
    ∃ d, some d ∈ deps ∧ f.eff ∈ d.effects := by
  split at hf
  · rcases deps with _ | ⟨od, rest⟩
    · cases hf
    · rcases rest with _ | ⟨od2, rest2⟩
      · rcases od with _ | d
        · cases hf
        · exact ⟨d, by simp, fire_mem_of_mem_triggerEffects st d.effects f hf⟩
      · rcases od with _ | d <;> cases hf
  · have heff := fire_mem_of_mem_triggerEffects st _ f hf
    have hmem := mem_dedupL _ _ heff
    rcases mem_flattenDeps_aux _ _ [] hmem with h | ⟨d, hd, hx⟩
    · cases h
    · exact ⟨d, hd, hx⟩

/-- Claim C7: for a SET trigger with key `"length"` on an array target
shrinking the length to `nv`, the candidate dep list is exactly the deps of
that target whose key is `"length"` or a numeric index `≥ nv` (in map
order); deps at indices `< nv` (and at any other key) are not collected,
and every fired effect belongs to one of the collected deps. -/
theorem trigger_length_shrink (env : TgtEnv) (st : RState) (t : Nat) (nv : Nat)
    (hArr : env.isArr t = true) :
    triggerDeps env st t .set (some (.str "length")) nv
      = ((targetSlots st t).filter
          (fun p => decide (p.1.2 = RKey.str "length" ∨ keyGeNum p.1.2 nv = true))).map
            (fun p => some p.2)
    ∧ (∀ k, keyGeNum k nv = true ↔ ∃ i, k = RKey.idx i ∧ nv ≤ i)
    ∧ ∀ f ∈ triggerFired env st t .set (some (.str "length")) nv,
        ∃ p, p ∈ st.tm ∧ p.1.1 = t
          ∧ (p.1.2 = RKey.str "length" ∨ keyGeNum p.1.2 nv = true)
          ∧ f.eff ∈ p.2.effects := by
  have hkey : ∀ k, keyGeNum k nv = true ↔ ∃ i, k = RKey.idx i ∧ nv ≤ i := by
    intro k
    cases k <;> simp [keyGeNum]
  have hdeps : triggerDeps env st t .set (some (.str "length")) nv
      = ((targetSlots st t).filter
          (fun p => decide (p.1.2 = RKey.str "length" ∨ keyGeNum p.1.2 nv = true))).map
            (fun p => some p.2) := by
    unfold triggerDeps
    rw [if_neg (by simp), if_pos ⟨rfl, hArr⟩]
    exact filterMap_guard_eq_map_filter
      (fun p : (Nat × RKey) × DepD => p.1.2 = RKey.str "length" ∨ keyGeNum p.1.2 nv = true)
      (fun p => some p.2) (targetSlots st t)
  refine ⟨hdeps, hkey, ?_⟩
  intro f hf
  have hslot : ∀ p, p ∈ (targetSlots st t).filter
      (fun p => decide (p.1.2 = RKey.str "length" ∨ keyGeNum p.1.2 nv = true)) →
      p ∈ st.tm ∧ p.1.1 = t ∧ (p.1.2 = RKey.str "length" ∨ keyGeNum p.1.2 nv = true) := by
    intro p hp
    have h1 := List.mem_filter.mp hp
    have h2 := List.mem_filter.mp h1.1
    refine ⟨h2.1, by simpa using h2.2, by simpa using h1.2⟩
  unfold triggerFired at hf
  split at hf
  · cases hf
  · rcases fired_branch_cover st (triggerDeps env st t .set (some (.str "length")) nv) f hf
      with ⟨d, hd, hx⟩
    rw [hdeps] at hd
    rcases List.mem_map.mp hd with ⟨p, hp, hpd⟩
    rcases hslot p hp with ⟨h1, h2, h3⟩
    refine ⟨p, h1, h2, h3, ?_⟩
    have : p.2 = d := by simpa using hpd
    rw [this]
    exact hx

/-- Witness for `trigger_length_shrink`: an array target 7 with deps at
index 0, index 2 and `"length"`; shrinking to length 2 collects exactly the
index-2 and length deps and fires only their effects. -/
theorem trigger_length_shrink_witness :
    (⟨fun t => t == 7, fun _ => false⟩ : TgtEnv).isArr 7 = true
    ∧ triggerFired ⟨fun t => t == 7, fun _ => false⟩
        { tm := [((7, .idx 0), ⟨[1], 0, 0⟩), ((7, .idx 2), ⟨[2], 0, 0⟩),
                 ((7, .str "length"), ⟨[3], 0, 0⟩)],
          effs := [(1, { defaultEffD with active := true }),
                   (2, { defaultEffD with active := true }),
                   (3, { defaultEffD with active := true })],
          runStack := [], shouldTrack := true, trackStack := [],
          depth := 0, trackOpBit := 1 }
        7 .set (some (.str "length")) 2 = [.runF 2, .runF 3]
    ∧ (∀ f ∈ triggerFired ⟨fun t => t == 7, fun _ => false⟩
        { tm := [((7, .idx 0), ⟨[1], 0, 0⟩), ((7, .idx 2), ⟨[2], 0, 0⟩),
                 ((7, .str "length"), ⟨[3], 0, 0⟩)],
          effs := [(1, { defaultEffD with active := true }),
                   (2, { defaultEffD with active := true }),
                   (3, { defaultEffD with active := true })],
          runStack := [], shouldTrack := true, trackStack := [],
          depth := 0, trackOpBit := 1 }
        7 .set (some (.str "length")) 2,
        ∃ p, p ∈ ([((7, .idx 0), (⟨[1], 0, 0⟩ : DepD)), ((7, .idx 2), ⟨[2], 0, 0⟩),
                 ((7, .str "length"), ⟨[3], 0, 0⟩)] : List ((Nat × RKey) × DepD)) ∧ p.1.1 = 7
          ∧ (p.1.2 = RKey.str "length" ∨ keyGeNum p.1.2 2 = true)
          ∧ f.eff ∈ p.2.effects) :=
  ⟨rfl, by decide,
    (trigger_length_shrink ⟨fun t => t == 7, fun _ => false⟩
      { tm := [((7, .idx 0), ⟨[1], 0, 0⟩), ((7, .idx 2), ⟨[2], 0, 0⟩),
               ((7, .str "length"), ⟨[3], 0, 0⟩)],
        effs := [(1, { defaultEffD with active := true }),
                 (2, { defaultEffD with active := true }),
                 (3, { defaultEffD with active := true })],
        runStack := [], shouldTrack := true, trackStack := [],
        depth := 0, trackOpBit := 1 } 7 2 rfl).2.2⟩

/-- Claim C6: `triggerEffect` does nothing exactly when the effect is the
current `activeEffect` and its `allowRecurse` flag is falsy; in every other
case it invokes the scheduler if the effect has one and `run()` otherwise. -/
theorem triggerEffect_spec (st : RState) (e : Nat) :
    triggerEffectOp st e =
      if activeEffect st = some e ∧ (getEff st e).allowRecurse = false then none
      else some (if (getEff st e).hasSched then Fire.schedF e else Fire.runF e) := by
  by_cases h1 : activeEffect st = some e
  · by_cases h2 : (getEff st e).allowRecurse
    · simp [triggerEffectOp, h1, h2]
    · simp only [Bool.not_eq_true] at h2
      simp [triggerEffectOp, h1, h2]
  · simp [triggerEffectOp, h1]

end Reactivity

namespace Reactivity

/-- `cleanupEffect` preserves the invariant provided the cleaned effect does
not sit at a marker level (depth `≤ 30`) of the run stack. -/
theorem cleanup_WF (st : RState) (e : Nat) (hWF : WF st)
    (hnot : ∀ i, 1 ≤ i → i ≤ st.depth → i ≤ 30 →
      st.runStack.get? (st.depth - i) ≠ some e) :
    WF (cleanupEffectOp e st) := by
  obtain ⟨hA, hB, hnd, hdep, hbit, hsd, hsl, hhc, hsi⟩ := hWF
  have hndds : (getDeps st e).Nodup := getDeps_nodup st ⟨hnd.1, hnd.2.1, hnd.2.2⟩ e
  have hlook := delFromDeps_lookup e (getDeps st e) st.tm hndds
  unfold cleanupEffectOp
  have hdeps : ∀ e',
      getDeps ({ st with tm := delFromDeps e (getDeps st e) st.tm,
                         effs := updEff st.effs e (fun ed => { ed with deps := [] }) } : RState) e'
      = if e' = e then [] else getDeps st e' := by
    intro e'
    by_cases h : e' = e
    · subst h
      unfold getDeps getEff
      dsimp only
      rw [lookupEff_updEff_self]
      rcases lookupEff st.effs e' with _ | ed <;> simp [defaultEffD]
    · unfold getDeps getEff
      dsimp only
      rw [lookupEff_updEff_ne _ _ _ _ h, if_neg h]
  refine ⟨?_, ?_, ?_, hdep, hbit, hsd, ?_, ?_, ?_⟩
  · -- biMemA
    intro tk d' hd' e' he'
    dsimp only at hd'
    rw [hlook tk] at hd'
    rcases hl : lookupTM st.tm tk with _ | d
    · rw [hl] at hd'
      cases hd'
    rw [hl] at hd'
    simp only [Option.map_some', Option.some_inj] at hd'
    subst hd'
    rw [hdeps e']
    by_cases htk : tk ∈ getDeps st e
    · rw [if_pos htk] at he'
      have hnd_eff : d.effects.Nodup := hnd.2.1 tk d hl
      have := (hnd_eff.mem_erase_iff).mp he'
      rw [if_neg this.1]
      exact hA tk d hl e' this.2
    · rw [if_neg htk] at he'
      have he'ne : e' ≠ e := by
        intro hh
        subst hh
        exact htk (hA tk d hl e' he')
      rw [if_neg he'ne]
      exact hA tk d hl e' he'
  · -- biMemB
    intro e' ed' hed' tk htk
    dsimp only at hed' ⊢
    by_cases h : e' = e
    · subst h
      rw [lookupEff_updEff_self] at hed'
      rcases hl : lookupEff st.effs e' with _ | ed
      · rw [hl] at hed'
        cases hed'
      · rw [hl] at hed'
        cases hed'
        cases htk
    · rw [lookupEff_updEff_ne _ _ _ _ h] at hed'
      obtain ⟨d, hld, hey⟩ := hB e' ed' hed' tk htk
      refine ⟨if tk ∈ getDeps st e then delEff e d else d, ?_, ?_⟩
      · rw [hlook tk, hld]
        cases htkm : decide (tk ∈ getDeps st e) <;> simp_all
      · by_cases htkm : tk ∈ getDeps st e
        · rw [if_pos htkm]
          exact (List.mem_erase_of_ne h).mpr hey
        · rw [if_neg htkm]
          exact hey
  · -- wfNodup
    refine ⟨?_, ?_, ?_, ?_⟩
    · intro e' ed' hed'
      dsimp only at hed'
      by_cases h : e' = e
      · subst h
        rw [lookupEff_updEff_self] at hed'
        rcases hl : lookupEff st.effs e' with _ | ed
        · rw [hl] at hed'
          cases hed'
        · rw [hl] at hed'
          cases hed'
          exact List.nodup_nil
      · rw [lookupEff_updEff_ne _ _ _ _ h] at hed'
        exact hnd.1 e' ed' hed'
    · intro tk d' hd'
      dsimp only at hd'
      rw [hlook tk] at hd'
      rcases hl : lookupTM st.tm tk with _ | d
      · rw [hl] at hd'
        cases hd'
      rw [hl] at hd'
      simp only [Option.map_some', Option.some_inj] at hd'
      subst hd'
      by_cases htk : tk ∈ getDeps st e
      · rw [if_pos htk]
        exact (hnd.2.1 tk d hl).erase e
      · rw [if_neg htk]
        exact hnd.2.1 tk d hl
    · dsimp only
      rw [delFromDeps_keys]
      exact hnd.2.2.1
    · dsimp only
      rw [keys_updEff]
      exact hnd.2.2.2
  · -- stackListed
    intro e' he'
    dsimp only at he' ⊢
    by_cases h : e' = e
    · subst h
      rw [lookupEff_updEff_self]
      have := hsl e' he'
      rcases hl : lookupEff st.effs e' with _ | ed
      · rw [hl] at this
        cases this
      · rfl
    · rw [lookupEff_updEff_ne _ _ _ _ h]
      exact hsl e' he'
  · -- highClear
    intro tk d' hd' i hi
    dsimp only at hd'
    rw [hlook tk] at hd'
    rcases hl : lookupTM st.tm tk with _ | d
    · rw [hl] at hd'
      cases hd'
    rw [hl] at hd'
    simp only [Option.map_some', Option.some_inj] at hd'
    subst hd'
    have hold := hhc tk d hl i hi
    by_cases htk : tk ∈ getDeps st e
    · rw [if_pos htk]
      exact hold
    · rw [if_neg htk]
      exact hold
  · -- stackInv
    intro i f h1 h2 h3 hget tk d' hd'
    dsimp only at hget hd' ⊢
    have hfe : f ≠ e := by
      intro hh
      subst hh
      exact hnot i h1 h2 h3 hget
    rw [hlook tk] at hd'
    rcases hl : lookupTM st.tm tk with _ | d
    · rw [hl] at hd'
      cases hd'
    rw [hl] at hd'
    simp only [Option.map_some', Option.some_inj] at hd'
    subst hd'
    have hold := hsi i f h1 h2 h3 hget tk d hl
    have hw : (if tk ∈ getDeps st e then delEff e d else d).w = d.w := by
      split <;> rfl
    have hn : (if tk ∈ getDeps st e then delEff e d else d).n = d.n := by
      split <;> rfl
    rw [hdeps f, if_neg hfe, hw, hn]
    exact hold

/-- `stop()` preserves the invariant provided the stopped effect does not
sit at a marker level (depth `≤ 30`) of the run stack. -/
theorem stopOp_WF (st : RState) (e : Nat) (hWF : WF st)
    (hnot : ∀ i, 1 ≤ i → i ≤ st.depth → i ≤ 30 →
      st.runStack.get? (st.depth - i) ≠ some e) :
    WF (stopOp e st) := by
  unfold stopOp
  split
  · exact WF_updEff_depsEq st e _ (fun ed => rfl) hWF
  · split
    · exact WF_updEff_depsEq (cleanupEffectOp e st) e _ (fun ed => rfl)
        (cleanup_WF st e hWF hnot)
    · exact hWF

/-- Entering `run()` at a marker depth (`≤ 30`): the push followed by
`initDepMarkers` preserves the invariant. -/
theorem enter_init_WF (st : RState) (e : Nat) (hWF : WF st)
    (hnotin : e ∉ st.runStack) (hsome : (lookupEff st.effs e).isSome)
    (hd30 : st.depth + 1 ≤ 30) :
    WF (initDepMarkersOp e (pushEff st e)) := by
  obtain ⟨hA, hB, hnd, hdep, hbit, hsd, hsl, hhc, hsi⟩ := hWF
  have hndds : (getDeps st e).Nodup := getDeps_nodup st ⟨hnd.1, hnd.2.1, hnd.2.2⟩ e
  have hlook := markWas_lookup (2 ^ (st.depth + 1)) (getDeps st e) st.tm hndds
  have hinit : initDepMarkersOp e (pushEff st e)
      = { st with tm := markWas (2 ^ (st.depth + 1)) (getDeps st e) st.tm,
                  runStack := e :: st.runStack, shouldTrack := true,
                  depth := st.depth + 1, trackOpBit := 2 ^ (st.depth + 1) } := rfl
  rw [hinit]
  refine ⟨?_, ?_, ?_, ?_, rfl, ?_, ?_, ?_, ?_⟩
  · -- biMemA
    intro tk d' hd' e' he'
    dsimp only at hd' ⊢
    rw [hlook tk] at hd'
    rcases hl : lookupTM st.tm tk with _ | d
    · rw [hl] at hd'
      cases hd'
    rw [hl] at hd'
    simp only [Option.map_some', Option.some_inj] at hd'
    subst hd'
    by_cases htk : tk ∈ getDeps st e
    · rw [if_pos htk] at he'
      exact hA tk d hl e' he'
    · rw [if_neg htk] at he'
      exact hA tk d hl e' he'
  · -- biMemB
    intro e' ed' hed' tk htk
    dsimp only at hed' ⊢
    obtain ⟨d, hld, he⟩ := hB e' ed' hed' tk htk
    refine ⟨if tk ∈ getDeps st e
        then { d with w := d.w ||| 2 ^ (st.depth + 1) } else d, ?_, ?_⟩
    · rw [hlook tk, hld]
      rfl
    · split <;> exact he
  · -- wfNodup
    refine ⟨fun e' ed' hed' => hnd.1 e' ed' hed', ?_, ?_, hnd.2.2.2⟩
    · intro tk d' hd'
      dsimp only at hd'
      rw [hlook tk] at hd'
      rcases hl : lookupTM st.tm tk with _ | d
      · rw [hl] at hd'
        cases hd'
      rw [hl] at hd'
      simp only [Option.map_some', Option.some_inj] at hd'
      subst hd'
      have := hnd.2.1 tk d hl
      split <;> exact this
    · dsimp only
      rw [markWas_keys]
      exact hnd.2.2.1
  · -- depth = stack length
    dsimp only
    rw [List.length_cons, hdep]
  · -- stack nodup
    exact List.nodup_cons.mpr ⟨hnotin, hsd⟩
  · -- stackListed
    intro e' he'
    dsimp only at he' ⊢
    rcases List.mem_cons.mp he' with h | h
    · subst h
      exact hsome
    · exact hsl e' h
  · -- highClear
    intro tk d' hd' i hi
    dsimp only at hd' hi ⊢
    rw [hlook tk] at hd'
    rcases hl : lookupTM st.tm tk with _ | d
    · rw [hl] at hd'
      cases hd'
    rw [hl] at hd'
    simp only [Option.map_some', Option.some_inj] at hd'
    subst hd'
    have hold := hhc tk d hl i (by omega)
    have hne : st.depth + 1 ≠ i := by omega
    by_cases htk : tk ∈ getDeps st e
    · rw [if_pos htk]
      refine ⟨?_, hold.2⟩
      simp [Nat.testBit_lor, Nat.testBit_two_pow_of_ne hne, hold.1]
    · rw [if_neg htk]
      exact hold
  · -- stackInv
    intro i f h1 h2 h3 hget tk d' hd'
    dsimp only at hget hd' h2 ⊢
    rw [hlook tk] at hd'
    rcases hl : lookupTM st.tm tk with _ | d
    · rw [hl] at hd'
      cases hd'
    rw [hl] at hd'
    simp only [Option.map_some', Option.some_inj] at hd'
    subst hd'
    by_cases hiD : i = st.depth + 1
    · -- the newly pushed effect
      rw [hiD, Nat.sub_self] at hget
      simp only [List.get?_cons_zero, Option.some_inj] at hget
      subst hget
      constructor
      · intro hout
        have hout' : tk ∉ getDeps st e := hout
        rw [if_neg hout']
        exact hhc tk d hl i (by omega)
      · intro hin
        have hin' : tk ∈ getDeps st e := hin
        rw [if_pos hin']
        refine Or.inl ?_
        rw [hiD]
        simp [Nat.testBit_lor, Nat.testBit_two_pow_self]
    · -- a deeper stack level
      have hile : i ≤ st.depth := by omega
      have hidx : st.depth + 1 - i = (st.depth - i) + 1 := by omega
      rw [hidx, List.get?_cons_succ] at hget
      have hold := hsi i f h1 hile h3 hget tk d hl
      have hne : st.depth + 1 ≠ i := by omega
      have hw : (if tk ∈ getDeps st e
          then { d with w := d.w ||| 2 ^ (st.depth + 1) } else d).w.testBit i
          = d.w.testBit i := by
        split
        · simp [Nat.testBit_lor, Nat.testBit_two_pow_of_ne hne]
        · rfl
      have hn : (if tk ∈ getDeps st e
          then { d with w := d.w ||| 2 ^ (st.depth + 1) } else d).n.testBit i
          = d.n.testBit i := by
        split <;> rfl
      rw [hw, hn]
      exact hold

/-- Pushing an effect at depth `> 30` (no marker level) preserves the
invariant on its own. -/
theorem push_WF (st : RState) (e : Nat) (hWF : WF st)
    (hnotin : e ∉ st.runStack) (hsome : (lookupEff st.effs e).isSome)
    (hd30 : 30 < st.depth + 1) :
    WF (pushEff st e) := by
  obtain ⟨hA, hB, hnd, hdep, hbit, hsd, hsl, hhc, hsi⟩ := hWF
  refine ⟨hA, hB, hnd, ?_, rfl, ?_, ?_, ?_, ?_⟩
  · dsimp only [pushEff]
    rw [List.length_cons, hdep]
  · exact List.nodup_cons.mpr ⟨hnotin, hsd⟩
  · intro e' he'
    dsimp only [pushEff] at he'
    rcases List.mem_cons.mp he' with h | h
    · subst h
      exact hsome
    · exact hsl e' h
  · intro tk d hd i hi
    dsimp only [pushEff] at hi
    exact hhc tk d hd i (by omega)
  · intro i f h1 h2 h3 hget tk d hd
    dsimp only [pushEff] at h2 hget ⊢
    have hile : i ≤ st.depth := by omega
    have hidx : st.depth + 1 - i = (st.depth - i) + 1 := by omega
    rw [hidx, List.get?_cons_succ] at hget
    exact hsi i f h1 hile h3 hget tk d hd

/-- The full entry sequence of `run()` preserves the invariant. -/
theorem enter_WF (st : RState) (e : Nat) (hWF : WF st)
    (hnotin : e ∉ st.runStack) (hsome : (lookupEff st.effs e).isSome) :
    WF (enterEff st e) := by
  unfold enterEff
  split
  · rename_i h
    exact enter_init_WF st e hWF hnotin hsome h
  · rename_i h
    have h30 : 30 < st.depth + 1 := by
      have : ¬ st.depth + 1 ≤ maxMarkerBits := h
      unfold maxMarkerBits at this
      omega
    refine cleanup_WF (pushEff st e) e (push_WF st e hWF hnotin hsome h30) ?_
    intro i h1 h2 h3 hget
    dsimp only [pushEff] at h2 hget
    have hidx : st.depth + 1 - i = (st.depth - i) + 1 := by omega
    rw [hidx, List.get?_cons_succ] at hget
    exact hnotin (List.get?_mem hget)

/-- Exiting `run()` from a marker depth: `finalizeDepMarkers` followed by
the pop preserves the invariant. -/
theorem exit_fin_WF (st : RState) (e : Nat) (b : Bool) (t : List Nat)
    (hWF : WF st) (hstack : st.runStack = e :: t) (hnt : e ∉ t)
    (hd30 : st.depth ≤ maxMarkerBits) :
    WF (popEff (finalizeDepMarkersOp e st) b) := by
  obtain ⟨hA, hB, hnd, hdep, hbit, hsd, hsl, hhc, hsi⟩ := hWF
  have hd30' : st.depth ≤ 30 := hd30
  have hndds : (getDeps st e).Nodup := getDeps_nodup st ⟨hnd.1, hnd.2.1, hnd.2.2⟩ e
  have hsomeall : ∀ tk ∈ getDeps st e, (lookupTM st.tm tk).isSome := by
    intro tk htk
    obtain ⟨d, hld, _⟩ := getDeps_sub st hB e tk htk
    rw [hld]
    rfl
  obtain ⟨hkeep, hlook, hkeys⟩ :=
    finSweep_spec e st.trackOpBit (getDeps st e) st.tm hndds hsomeall
  have hD1 : 1 ≤ st.depth := by
    rw [hdep, hstack]
    simp
  have hget0 : st.runStack.get? 0 = some e := by
    rw [hstack]
    rfl
  have hsiD := hsi st.depth e hD1 (le_refl _) hd30'
    (by rw [Nat.sub_self]; exact hget0)
  have hsle : (lookupEff st.effs e).isSome := by
    apply hsl
    rw [hstack]
    exact List.mem_cons_self _ _
  have hfw : ∀ del d, (finUpd e st.trackOpBit del d).w = Nat.ldiff d.w st.trackOpBit := by
    intro del d
    cases del <;> rfl
  have hfn : ∀ del d, (finUpd e st.trackOpBit del d).n = Nat.ldiff d.n st.trackOpBit := by
    intro del d
    cases del <;> rfl
  have hfe : ∀ del d, (finUpd e st.trackOpBit del d).effects
      = (if del then d.effects.erase e else d.effects) := by
    intro del d
    cases del <;> rfl
  have hpop : popEff (finalizeDepMarkersOp e st) b
      = { st with tm := (finSweep e st.trackOpBit (getDeps st e) st.tm).2,
                  effs := updEff st.effs e (fun ed =>
                    { ed with deps := (finSweep e st.trackOpBit (getDeps st e) st.tm).1 }),
                  depth := st.depth - 1, trackOpBit := 2 ^ (st.depth - 1),
                  runStack := st.runStack.tail, shouldTrack := b } := rfl
  have hdeps : ∀ e',
      getDeps (popEff (finalizeDepMarkersOp e st) b) e'
      = if e' = e then (finSweep e st.trackOpBit (getDeps st e) st.tm).1
        else getDeps st e' := by
    intro e'
    rw [hpop]
    by_cases h : e' = e
    · subst h
      unfold getDeps getEff
      dsimp only
      rw [lookupEff_updEff_self, if_pos rfl]
      rcases hl : lookupEff st.effs e' with _ | ed
      · rw [hl] at hsle
        cases hsle
      · rfl
    · unfold getDeps getEff
      dsimp only
      rw [lookupEff_updEff_ne _ _ _ _ h, if_neg h]
  rw [hpop] at hdeps
  rw [hpop]
  refine ⟨?_, ?_, ?_, ?_, rfl, ?_, ?_, ?_, ?_⟩
  · -- biMemA
    intro tk d' hd' e' he'
    dsimp only at hd'
    rw [hlook tk] at hd'
    rcases hl : lookupTM st.tm tk with _ | d
    · rw [hl] at hd'
      cases hd'
    rw [hl] at hd'
    simp only [Option.map_some', Option.some_inj] at hd'
    subst hd'
    rw [hdeps e']
    by_cases htk : tk ∈ getDeps st e
    · rw [if_pos htk] at he'
      rw [hfe] at he'
      cases hdelv : delP st.trackOpBit st.tm tk with
      | true =>
        rw [hdelv, if_pos rfl] at he'
        have hnd_eff : d.effects.Nodup := hnd.2.1 tk d hl
        have hh := (hnd_eff.mem_erase_iff).mp he'
        rw [if_neg hh.1]
        exact hA tk d hl e' hh.2
      | false =>
        rw [hdelv] at he'
        simp only [if_neg Bool.false_ne_true] at he'
        by_cases he'e : e' = e
        · subst he'e
          rw [if_pos rfl, hkeep]
          exact List.mem_filter.mpr ⟨htk, by rw [hdelv]; rfl⟩
        · rw [if_neg he'e]
          exact hA tk d hl e' he'
    · rw [if_neg htk] at he'
      have he'ne : e' ≠ e := by
        intro hh
        subst hh
        exact htk (hA tk d hl e' he')
      rw [if_neg he'ne]
      exact hA tk d hl e' he'
  · -- biMemB
    intro e' ed' hed' tk htk
    dsimp only at hed'
    by_cases h : e' = e
    · subst h
      rw [lookupEff_updEff_self] at hed'
      rcases hl : lookupEff st.effs e' with _ | ed
      · rw [hl] at hed'
        cases hed'
      rw [hl] at hed'
      cases hed'
      simp only at htk
      rw [hkeep] at htk
      have hmf := List.mem_filter.mp htk
      have htkds : tk ∈ getDeps st e' := hmf.1
      have hdelf : delP st.trackOpBit st.tm tk = false := by
        have := hmf.2
        cases hv : delP st.trackOpBit st.tm tk
        · rfl
        · rw [hv] at this
          cases this
      obtain ⟨d, hld, hein⟩ := getDeps_sub st hB e' tk htkds
      refine ⟨finUpd e' st.trackOpBit (delP st.trackOpBit st.tm tk) d, ?_, ?_⟩
      · dsimp only
        rw [hlook tk, hld]
        simp [htkds]
      · rw [hfe, hdelf]
        simpa using hein
    · rw [lookupEff_updEff_ne _ _ _ _ h] at hed'
      obtain ⟨d, hld, hey⟩ := hB e' ed' hed' tk htk
      by_cases htkds : tk ∈ getDeps st e
      · refine ⟨finUpd e st.trackOpBit (delP st.trackOpBit st.tm tk) d, ?_, ?_⟩
        · dsimp only
          rw [hlook tk, hld]
          simp [htkds]
        · rw [hfe]
          split
          · exact (List.mem_erase_of_ne h).mpr hey
          · exact hey
      · refine ⟨d, ?_, hey⟩
        dsimp only
        rw [hlook tk, hld]
        simp [htkds]
  · -- wfNodup
    refine ⟨?_, ?_, ?_, ?_⟩
    · intro e' ed' hed'
      dsimp only at hed'
      by_cases h : e' = e
      · subst h
        rw [lookupEff_updEff_self] at hed'
        rcases hl : lookupEff st.effs e' with _ | ed
        · rw [hl] at hed'
          cases hed'
        · rw [hl] at hed'
          cases hed'
          simp only
          rw [hkeep]
          exact hndds.filter _
      · rw [lookupEff_updEff_ne _ _ _ _ h] at hed'
        exact hnd.1 e' ed' hed'
    · intro tk d' hd'
      dsimp only at hd'
      rw [hlook tk] at hd'
      rcases hl : lookupTM st.tm tk with _ | d
      · rw [hl] at hd'
        cases hd'
      rw [hl] at hd'
      simp only [Option.map_some', Option.some_inj] at hd'
      subst hd'
      have hond := hnd.2.1 tk d hl
      split
      · rw [hfe]
        split
        · exact hond.erase e
        · exact hond
      · exact hond
    · dsimp only
      rw [hkeys]
      exact hnd.2.2.1
    · dsimp only
      rw [keys_updEff]
      exact hnd.2.2.2
  · -- depth = stack length
    dsimp only
    rw [hstack] at hdep ⊢
    simp only [List.length_cons] at hdep
    simp only [List.tail_cons]
    omega
  · -- stack nodup
    dsimp only
    rw [hstack]
    rw [hstack] at hsd
    exact (List.nodup_cons.mp hsd).2
  · -- stackListed
    intro e' he'
    dsimp only at he' ⊢
    rw [hstack] at he'
    simp only [List.tail_cons] at he'
    have he'ne : e' ≠ e := fun hh => hnt (hh ▸ he')
    rw [lookupEff_updEff_ne _ _ _ _ he'ne]
    apply hsl
    rw [hstack]
    exact List.mem_cons_of_mem _ he'
  · -- highClear
    intro tk d' hd' i hi
    dsimp only at hd' hi
    rw [hlook tk] at hd'
    rcases hl : lookupTM st.tm tk with _ | d
    · rw [hl] at hd'
      cases hd'
    rw [hl] at hd'
    simp only [Option.map_some', Option.some_inj] at hd'
    subst hd'
    by_cases htk : tk ∈ getDeps st e
    · rw [if_pos htk]
      by_cases hiD : i = st.depth
      · rw [hfw, hfn, hiD]
        simp [Nat.testBit_ldiff, hbit, Nat.testBit_two_pow_self]
      · have hold := hhc tk d hl i (by omega)
        rw [hfw, hfn]
        simp [Nat.testBit_ldiff, hold.1, hold.2]
    · rw [if_neg htk]
      by_cases hiD : i = st.depth
      · rw [hiD]
        exact (hsiD tk d hl).1 htk
      · exact hhc tk d hl i (by omega)
  · -- stackInv
    intro i f h1 h2 h3 hget tk d' hd'
    dsimp only at h2 hget hd' ⊢
    rw [hstack] at hget
    simp only [List.tail_cons] at hget
    have hfm : f ∈ t := List.get?_mem hget
    have hfne : f ≠ e := fun hh => hnt (hh ▸ hfm)
    have hgetold : st.runStack.get? (st.depth - i) = some f := by
      rw [hstack]
      have hidx : st.depth - i = (st.depth - 1 - i) + 1 := by omega
      rw [hidx, List.get?_cons_succ]
      exact hget
    rw [hlook tk] at hd'
    rcases hl : lookupTM st.tm tk with _ | d
    · rw [hl] at hd'
      cases hd'
    rw [hl] at hd'
    simp only [Option.map_some', Option.some_inj] at hd'
    subst hd'
    have hold := hsi i f h1 (by omega) h3 hgetold tk d hl
    have hDnei : st.depth ≠ i := by omega
    have hw' : (if tk ∈ getDeps st e
        then finUpd e st.trackOpBit (delP st.trackOpBit st.tm tk) d else d).w.testBit i
        = d.w.testBit i := by
      split
      · rw [hfw]
        simp [Nat.testBit_ldiff, hbit, Nat.testBit_two_pow_of_ne hDnei]
      · rfl
    have hn' : (if tk ∈ getDeps st e
        then finUpd e st.trackOpBit (delP st.trackOpBit st.tm tk) d else d).n.testBit i
        = d.n.testBit i := by
      split
      · rw [hfn]
        simp [Nat.testBit_ldiff, hbit, Nat.testBit_two_pow_of_ne hDnei]
      · rfl
    rw [hdeps f, if_neg hfne, hw', hn']
    exact hold

/-- Exiting `run()` from a depth beyond the marker range: the bare pop
preserves the invariant. -/
theorem exit_plain_WF (st : RState) (e : Nat) (b : Bool) (t : List Nat)
    (hWF : WF st) (hstack : st.runStack = e :: t)
    (hd30 : ¬ st.depth ≤ maxMarkerBits) :
    WF (popEff st b) := by
  obtain ⟨hA, hB, hnd, hdep, hbit, hsd, hsl, hhc, hsi⟩ := hWF
  have hd30' : 30 < st.depth := by
    unfold maxMarkerBits at hd30
    omega
  refine ⟨hA, hB, hnd, ?_, rfl, ?_, ?_, ?_, ?_⟩
  · dsimp only [popEff]
    rw [hstack] at hdep ⊢
    simp only [List.length_cons] at hdep
    simp only [List.tail_cons]
    omega
  · dsimp only [popEff]
    rw [hstack]
    rw [hstack] at hsd
    exact (List.nodup_cons.mp hsd).2
  · intro e' he'
    dsimp only [popEff] at he'
    exact hsl e' (List.mem_of_mem_tail he')
  · intro tk d hd i hi
    dsimp only [popEff] at hi
    exact hhc tk d hd i (by omega)
  · intro i f h1 h2 h3 hget tk d hd
    dsimp only [popEff] at h2 hget ⊢
    rw [hstack] at hget
    simp only [List.tail_cons] at hget
    have hgetold : st.runStack.get? (st.depth - i) = some f := by
      rw [hstack]
      have hidx : st.depth - i = (st.depth - 1 - i) + 1 := by omega
      rw [hidx, List.get?_cons_succ]
      exact hget
    exact hsi i f h1 (by omega) h3 hgetold tk d hd

/-- The full exit sequence of `run()` preserves the invariant. -/
theorem exit_WF (st : RState) (e : Nat) (b : Bool) (t : List Nat)
    (hWF : WF st) (hstack : st.runStack = e :: t) (hnt : e ∉ t) :
    WF (exitEff st e b) := by
  unfold exitEff
  split
  · rename_i h
    exact exit_fin_WF st e b t hWF hstack hnt h
  · rename_i h
    exact exit_plain_WF st e b t hWF hstack h

/-- `stop()` never touches the run stack. -/
theorem stopOp_runStack (e : Nat) (st : RState) :
    (stopOp e st).runStack = st.runStack := by
  unfold stopOp
  split
  · rfl
  · split
    · rfl
    · rfl

/-- `trackEffects` never touches the run stack. -/
theorem trackEffectsOp_runStack (st : RState) (tk : Nat × RKey) :
    (trackEffectsOp st tk).runStack = st.runStack := by
  unfold trackEffectsOp
  split
  · rfl
  · split
    · rfl
    · split
      · split
        · split
          · rfl
          · rfl
        · rfl
      · split
        · rfl
        · rfl

/-- `track` never touches the run stack. -/
theorem trackOp_runStack (st : RState) (t : Nat) (k : RKey) :
    (trackOp st t k).runStack = st.runStack := by
  unfold trackOp
  split
  · rw [trackEffectsOp_runStack]
    unfold ensureSlot
    split
    · rfl
    · rfl
  · rfl

/-- The entry sequence pushes exactly the entered effect. -/
theorem enterEff_runStack (st : RState) (e : Nat) :
    (enterEff st e).runStack = e :: st.runStack := by
  unfold enterEff
  split
  · rfl
  · rfl

/-- The exit sequence pops exactly the top of the run stack. -/
theorem exitEff_runStack (st : RState) (e : Nat) (b : Bool) :
    (exitEff st e b).runStack = st.runStack.tail := by
  unfold exitEff popEff
  split
  · rfl
  · rfl

/-- Executing a script restores the run stack (every `run()` pops what it
pushed). -/
theorem execScript_runStack (sc : Script) : ∀ st : RState,
    (execScript st sc).runStack = st.runStack := by
  induction sc with
  | nil => exact fun st => rfl
  | track t k rest ih =>
    intro st
    have h : execScript st (.track t k rest) = execScript (trackOp st t k) rest := rfl
    rw [h, ih, trackOp_runStack]
  | runE e body rest ihb ihr =>
    intro st
    have h : execScript st (.runE e body rest) = execScript (runEStep st e body) rest := rfl
    rw [h, ihr]
    unfold runEStep
    split
    · exact ihb st
    · split
      · rfl
      · dsimp only
        split
        · rw [stopOp_runStack, exitEff_runStack, ihb, enterEff_runStack, List.tail_cons]
        · rw [exitEff_runStack, ihb, enterEff_runStack, List.tail_cons]

/-- One `run()` invocation preserves the invariant. -/
theorem runEStep_WF (st : RState) (e : Nat) (body : Script)
    (ihb : ∀ s, WF s → WF (execScript s body)) (hWF : WF st) :
    WF (runEStep st e body) := by
  unfold runEStep
  split
  · exact ihb st hWF
  · split
    · exact hWF
    · rename_i hact hmem
      dsimp only
      have hactive : (getEff st e).active = true := by
        by_contra h
        exact hact (by simpa using h)
      have hsome : (lookupEff st.effs e).isSome := by
        rcases hl : lookupEff st.effs e with _ | ed
        · exfalso
          unfold getEff at hactive
          rw [hl] at hactive
          exact absurd hactive (by simp [defaultEffD])
        · rfl
      have hW3 : WF (execScript (enterEff st e) body) :=
        ihb _ (enter_WF st e hWF hmem hsome)
      have hstack3 : (execScript (enterEff st e) body).runStack = e :: st.runStack := by
        rw [execScript_runStack, enterEff_runStack]
      have hW5 : WF (exitEff (execScript (enterEff st e) body) e st.shouldTrack) :=
        exit_WF _ e st.shouldTrack st.runStack hW3 hstack3 hmem
      split
      · apply stopOp_WF _ e hW5
        intro i h1 h2 h3
        rw [exitEff_runStack, hstack3]
        simp only [List.tail_cons]
        intro hg
        exact hmem (List.get?_mem hg)
      · exact hW5

/-- Executing any script preserves the invariant. -/
theorem execScript_WF (sc : Script) : ∀ st : RState, WF st → WF (execScript st sc) := by
  induction sc with
  | nil => exact fun st h => h
  | track t k rest ih =>
    intro st h
    have heq : execScript st (.track t k rest) = execScript (trackOp st t k) rest := rfl
    rw [heq]
    exact ih _ (trackOp_WF st t k h)
  | runE e body rest ihb ihr =>
    intro st h
    have heq : execScript st (.runE e body rest) = execScript (runEStep st e body) rest := rfl
    rw [heq]
    exact ihr _ (runEStep_WF st e body ihb h)

/-- Every public operation applied at rest preserves the invariant and
returns to rest. -/
theorem applyROps_WF (env : TgtEnv) : ∀ (ops : List ROp) (st : RState),
    WF st → st.runStack = [] →
    WF (applyROps env st ops).1 ∧ (applyROps env st ops).1.runStack = [] := by
  intro ops
  induction ops with
  | nil => exact fun st h hr => ⟨h, hr⟩
  | cons op rest ih =>
    intro st h hr
    cases op with
    | runO e body =>
      refine ih _ (execScript_WF _ _ h) ?_
      show (execScript st _).runStack = []
      rw [execScript_runStack]
      exact hr
    | trackO t k =>
      refine ih _ (trackOp_WF st t k h) ?_
      rw [trackOp_runStack]
      exact hr
    | stopO e =>
      refine ih _ (stopOp_WF st e h ?_) ?_
      · intro i h1 h2 h3
        rw [hr]
        simp
      · rw [stopOp_runStack]
        exact hr
    | trigO t ty k nv =>
      exact ih _ h hr

/-- Claim C1: after any sequence of public operations (`run()`,
`track`/`trackEffects`, `stop()`, `trigger`) applied from a well-formed
rest state, dep membership is bidirectional: every effect held by a dep of
the target map carries that dep's slot in its `deps` list, and every slot
in an effect's `deps` list names a dep that contains the effect. -/
theorem membership_bidirectional (env : TgtEnv) (st : RState) (ops : List ROp)
    (h : RestWF st) :
    (∀ tk d, lookupTM (applyROps env st ops).1.tm tk = some d →
        ∀ e ∈ d.effects, tk ∈ getDeps (applyROps env st ops).1 e)
    ∧ (∀ e ed, lookupEff (applyROps env st ops).1.effs e = some ed →
        ∀ tk ∈ ed.deps, ∃ d, lookupTM (applyROps env st ops).1.tm tk = some d
          ∧ e ∈ d.effects) := by
  have hr : st.runStack = [] := h.2.2.2.1
  have hW := applyROps_WF env ops st (RestWF_WF st h) hr
  exact ⟨hW.1.1, hW.1.2.1⟩

/-- Concrete instance of `membership_bidirectional`: effect 1 runs and
tracks slot `(0, "x")`, then the slot is triggered. -/
theorem membership_bidirectional_witness :
    RestWF stC1
    ∧ ((∀ tk d, lookupTM (applyROps envC1 stC1 opsC1).1.tm tk = some d →
        ∀ e ∈ d.effects, tk ∈ getDeps (applyROps envC1 stC1 opsC1).1 e)
    ∧ (∀ e ed, lookupEff (applyROps envC1 stC1 opsC1).1.effs e = some ed →
        ∀ tk ∈ ed.deps, ∃ d, lookupTM (applyROps envC1 stC1 opsC1).1.tm tk = some d
          ∧ e ∈ d.effects)) :=
  ⟨by decide, membership_bidirectional envC1 stC1 opsC1 (by decide)⟩

theorem gone_tm_updTM (e : Nat) (tm : List ((Nat × RKey) × DepD)) (tk : Nat × RKey)
    (f : DepD → DepD) (hf : ∀ d, e ∉ d.effects → e ∉ (f d).effects)
    (h : ∀ p ∈ tm, e ∉ p.2.effects) :
    ∀ p ∈ updTM tm tk f, e ∉ p.2.effects := by
  intro p hp
  obtain ⟨p₀, hp₀, hpe⟩ := mem_updTM tm tk f p hp
  subst hpe
  split
  · exact hf _ (h p₀ hp₀)
  · exact h p₀ hp₀

theorem gone_tm_markWas (e bit : Nat) (ds : List (Nat × RKey)) :
    ∀ tm, (∀ p ∈ tm, e ∉ p.2.effects) → ∀ p ∈ markWas bit ds tm, e ∉ p.2.effects := by
  induction ds with
  | nil => exact fun tm h => h
  | cons tk rest ih =>
    intro tm h
    rw [markWas]
    exact ih _ (gone_tm_updTM e tm tk _ (fun d hd => hd) h)

theorem gone_tm_delFromDeps (e e' : Nat) (ds : List (Nat × RKey)) :
    ∀ tm, (∀ p ∈ tm, e ∉ p.2.effects) → ∀ p ∈ delFromDeps e' ds tm, e ∉ p.2.effects := by
  induction ds with
  | nil => exact fun tm h => h
  | cons tk rest ih =>
    intro tm h
    rw [delFromDeps]
    refine ih _ (gone_tm_updTM e tm tk _ ?_ h)
    intro d hd hco
    exact hd (List.mem_of_mem_erase hco)

theorem gone_tm_finSweep (e e' bit : Nat) (ds : List (Nat × RKey)) :
    ∀ tm, (∀ p ∈ tm, e ∉ p.2.effects) →
      ∀ p ∈ (finSweep e' bit ds tm).2, e ∉ p.2.effects := by
  induction ds with
  | nil => exact fun tm h => h
  | cons tk rest ih =>
    intro tm h
    rw [finSweep]
    rcases hl : lookupTM tm tk with _ | d
    · dsimp only
      exact ih tm h
    · dsimp only
      refine ih _ (gone_tm_updTM e tm tk _ ?_ h)
      intro dd hdd hco
      unfold finUpd at hco
      dsimp only at hco
      split at hco
      · exact hdd (List.mem_of_mem_erase hco)
      · exact hdd hco

theorem gone_tm_ensureSlot (e : Nat) (st : RState) (tk : Nat × RKey)
    (h : ∀ p ∈ st.tm, e ∉ p.2.effects) :
    ∀ p ∈ (ensureSlot st tk).tm, e ∉ p.2.effects := by
  unfold ensureSlot
  split
  · exact h
  · intro p hp
    dsimp only at hp
    rcases List.mem_append.mp hp with h1 | h1
    · exact h p h1
    · simp only [List.mem_singleton] at h1
      subst h1
      simp

theorem lookupEff_active_upd (effs : List (Nat × EffD)) (e e' : Nat) (f : EffD → EffD)
    (hf : ∀ ed, (f ed).active = ed.active)
    (h : ((lookupEff effs e).getD defaultEffD).active = false) :
    ((lookupEff (updEff effs e' f) e).getD defaultEffD).active = false := by
  by_cases hee : e = e'
  · subst hee
    rw [lookupEff_updEff_self]
    rcases hl : lookupEff effs e with _ | ed
    · rfl
    · rw [hl] at h
      simp only [Option.map_some', Option.getD_some]
      rw [hf]
      exact h
  · rw [lookupEff_updEff_ne _ _ _ _ hee]
    exact h

theorem gone_subscribe (st : RState) (tk : Nat × RKey) (a e : Nat) (hae : a ≠ e)
    (h : gone st e) : gone (subscribe st tk a) e := by
  obtain ⟨h1, h2, h3⟩ := h
  refine ⟨?_, ?_, h3⟩
  · unfold getEff
    dsimp only [subscribe]
    exact lookupEff_active_upd _ _ _ _ (fun ed => rfl) h1
  · dsimp only [subscribe]
    refine gone_tm_updTM e st.tm tk _ ?_ h2
    intro d hd
    unfold addEff
    split
    · exact hd
    · intro hco
      rcases List.mem_append.mp hco with hh | hh
      · exact hd hh
      · simp only [List.mem_singleton] at hh
        exact hae hh.symm

theorem gone_trackEffectsOp (st : RState) (tk : Nat × RKey) (e : Nat)
    (h : gone st e) : gone (trackEffectsOp st tk) e := by
  obtain ⟨h1, h2, h3⟩ := h
  unfold trackEffectsOp
  rcases hae : activeEffect st with _ | a
  · exact ⟨h1, h2, h3⟩
  rcases hld : lookupTM st.tm tk with _ | d
  · exact ⟨h1, h2, h3⟩
  dsimp only
  have hane : a ≠ e := by
    intro hh
    subst hh
    exact h3 (activeEffect_get0 st a hae).2.1
  have hst' : gone { st with
      tm := updTM st.tm tk (fun dd => { dd with n := dd.n ||| st.trackOpBit }) } e := by
    refine ⟨h1, ?_, h3⟩
    dsimp only
    exact gone_tm_updTM e st.tm tk _ (fun d hd => hd) h2
  split
  · split
    · split
      · exact gone_subscribe _ tk a e hane hst'
      · exact hst'
    · exact ⟨h1, h2, h3⟩
  · split
    · exact gone_subscribe st tk a e hane ⟨h1, h2, h3⟩
    · exact ⟨h1, h2, h3⟩

theorem gone_trackOp (st : RState) (t : Nat) (k : RKey) (e : Nat)
    (h : gone st e) : gone (trackOp st t k) e := by
  unfold trackOp
  split
  · refine gone_trackEffectsOp _ _ e ?_
    obtain ⟨h1, h2, h3⟩ := h
    refine ⟨?_, gone_tm_ensureSlot e st (t, k) h2, ?_⟩
    · unfold ensureSlot
      split
      · exact h1
      · exact h1
    · unfold ensureSlot
      split
      · exact h3
      · exact h3
  · exact h

theorem gone_cleanupEffectOp (st : RState) (e' e : Nat) (h : gone st e) :
    gone (cleanupEffectOp e' st) e := by
  obtain ⟨h1, h2, h3⟩ := h
  refine ⟨?_, ?_, h3⟩
  · unfold getEff
    dsimp only [cleanupEffectOp]
    exact lookupEff_active_upd _ _ _ _ (fun ed => rfl) h1
  · dsimp only [cleanupEffectOp]
    exact gone_tm_delFromDeps e e' (getDeps st e') st.tm h2

theorem gone_stopOp (st : RState) (e' e : Nat) (h : gone st e) :
    gone (stopOp e' st) e := by
  obtain ⟨h1, h2, h3⟩ := h
  unfold stopOp
  split
  · refine ⟨?_, h2, h3⟩
    unfold getEff
    dsimp only
    exact lookupEff_active_upd _ _ _ _ (fun ed => rfl) h1
  · split
    · have hcl := gone_cleanupEffectOp st e' e ⟨h1, h2, h3⟩
      obtain ⟨c1, c2, c3⟩ := hcl
      refine ⟨?_, c2, c3⟩
      unfold getEff
      dsimp only
      by_cases hee : e = e'
      · subst hee
        rw [lookupEff_updEff_self]
        rcases lookupEff (cleanupEffectOp e st).effs e with _ | ed
        · rfl
        · rfl
      · rw [lookupEff_updEff_ne _ _ _ _ hee]
        exact c1
    · exact ⟨h1, h2, h3⟩

theorem gone_initDepMarkersOp (st : RState) (e' e : Nat) (h : gone st e) :
    gone (initDepMarkersOp e' st) e := by
  obtain ⟨h1, h2, h3⟩ := h
  exact ⟨h1, gone_tm_markWas e st.trackOpBit (getDeps st e') st.tm h2, h3⟩

theorem gone_finalizeDepMarkersOp (st : RState) (e' e : Nat) (h : gone st e) :
    gone (finalizeDepMarkersOp e' st) e := by
  obtain ⟨h1, h2, h3⟩ := h
  refine ⟨?_, ?_, h3⟩
  · unfold getEff
    dsimp only [finalizeDepMarkersOp]
    exact lookupEff_active_upd _ _ _ _ (fun ed => rfl) h1
  · dsimp only [finalizeDepMarkersOp]
    exact gone_tm_finSweep e e' st.trackOpBit (getDeps st e') st.tm h2

theorem gone_execScript (e : Nat) (sc : Script) : ∀ st : RState,
    gone st e → gone (execScript st sc) e := by
  induction sc with
  | nil => exact fun st h => h
  | track t k rest ih =>
    intro st h
    have heq : execScript st (.track t k rest) = execScript (trackOp st t k) rest := rfl
    rw [heq]
    exact ih _ (gone_trackOp st t k e h)
  | runE e' body rest ihb ihr =>
    intro st h
    have heq : execScript st (.runE e' body rest) = execScript (runEStep st e' body) rest := rfl
    rw [heq]
    refine ihr _ ?_
    unfold runEStep
    split
    · exact ihb st h
    · split
      · exact h
      · rename_i hact hmem
        dsimp only
        have he'e : e' ≠ e := by
          intro hh
          subst hh
          exact hact (by simp [h.1])
        have hpush : gone (pushEff st e') e := by
          obtain ⟨h1, h2, h3⟩ := h
          refine ⟨h1, h2, ?_⟩
          intro hco
          rcases List.mem_cons.mp hco with hh | hh
          · exact he'e hh.symm
          · exact h3 hh
        have henter : gone (enterEff st e') e := by
          unfold enterEff
          split
          · exact gone_initDepMarkersOp _ e' e hpush
          · exact gone_cleanupEffectOp _ e' e hpush
        have h3g : gone (execScript (enterEff st e') body) e := ihb _ henter
        have hexit : gone (exitEff (execScript (enterEff st e') body) e'
            st.shouldTrack) e := by
          unfold exitEff popEff
          have hbase : gone (if (execScript (enterEff st e') body).depth ≤ maxMarkerBits
              then finalizeDepMarkersOp e' (execScript (enterEff st e') body)
              else execScript (enterEff st e') body) e := by
            split
            · exact gone_finalizeDepMarkersOp _ e' e h3g
            · exact h3g
          obtain ⟨b1, b2, b3⟩ := hbase
          refine ⟨b1, b2, ?_⟩
          intro hco
          exact b3 (List.mem_of_mem_tail hco)
        split
        · exact gone_stopOp _ e' e hexit
        · exact hexit

theorem triggerDeps_mem_tm (env : TgtEnv) (st : RState) (t : Nat) (ty : TrigType)
    (key : Option RKey) (nv : Nat) (d : DepD)
    (hd : some d ∈ triggerDeps env st t ty key nv) : ∃ tk, (tk, d) ∈ st.tm := by
  have hone : ∀ tk' : Nat × RKey, lookupTM st.tm tk' = some d → ∃ tk, (tk, d) ∈ st.tm :=
    fun tk' hh => ⟨tk', lookupTM_mem _ _ _ hh⟩
  unfold triggerDeps at hd
  split at hd
  · rcases List.mem_map.mp hd with ⟨p, hp, hpe⟩
    have hp2 : p.2 = d := by
      injection hpe
    refine ⟨p.1, ?_⟩
    rw [← hp2, Prod.mk.eta]
    exact (List.mem_filter.mp hp).1
  · split at hd
    · rcases List.mem_filterMap.mp hd with ⟨p, hp, hpe⟩
      split at hpe
      · have hp2 : p.2 = d := by
          injection hpe with hpe'
          injection hpe'
        refine ⟨p.1, ?_⟩
        rw [← hp2, Prod.mk.eta]
        exact (List.mem_filter.mp hp).1
      · cases hpe
    · rcases List.mem_append.mp hd with hh | hh
      · rcases key with _ | k
        · dsimp only at hh
          cases hh
        · dsimp only at hh
          simp only [List.mem_singleton] at hh
          exact hone (t, k) hh.symm
      · rcases ty with _ | _ | _ | _
        · -- set
          dsimp only at hh
          split at hh
          · simp only [List.mem_singleton] at hh
            exact hone (t, .iterateKey) hh.symm
          · cases hh
        · -- add
          dsimp only at hh
          split at hh
          · rcases List.mem_append.mp hh with h2 | h2
            · simp only [List.mem_singleton] at h2
              exact hone (t, .iterateKey) h2.symm
            · split at h2
              · simp only [List.mem_singleton] at h2
                exact hone (t, .mapKeyIterateKey) h2.symm
              · cases h2
          · split at hh
            · simp only [List.mem_singleton] at hh
              exact hone (t, .str "length") hh.symm
            · cases hh
        · -- delete
          dsimp only at hh
          split at hh
          · rcases List.mem_append.mp hh with h2 | h2
            · simp only [List.mem_singleton] at h2
              exact hone (t, .iterateKey) h2.symm
            · split at h2
              · simp only [List.mem_singleton] at h2
                exact hone (t, .mapKeyIterateKey) h2.symm
              · cases h2
          · cases hh
        · -- clear
          dsimp only at hh
          cases hh

theorem triggerFired_fires_mem (env : TgtEnv) (st : RState) (t : Nat) (ty : TrigType)
    (key : Option RKey) (nv : Nat) (f : Fire)
    (hf : f ∈ triggerFired env st t ty key nv) :
    ∃ tk d, (tk, d) ∈ st.tm ∧ Fire.eff f ∈ d.effects := by
  unfold triggerFired at hf
  split at hf
  · cases hf
  · obtain ⟨d, hd, hfe⟩ := fired_branch_cover st (triggerDeps env st t ty key nv) f hf
    obtain ⟨tk, htk⟩ := triggerDeps_mem_tm env st t ty key nv d hd
    exact ⟨tk, d, htk, hfe⟩

theorem gone_applyROps (env : TgtEnv) (e : Nat) : ∀ (ops : List ROp) (st : RState),
    gone st e →
    gone (applyROps env st ops).1 e
    ∧ ∀ f ∈ (applyROps env st ops).2, Fire.eff f ≠ e := by
  intro ops
  induction ops with
  | nil =>
    intro st h
    refine ⟨h, ?_⟩
    intro f hf
    cases hf
  | cons op rest ih =>
    intro st h
    cases op with
    | runO e' body =>
      have hn := ih _ (gone_execScript e (.runE e' body .nil) st h)
      refine ⟨hn.1, ?_⟩
      intro f hf
      exact hn.2 f hf
    | trackO t k =>
      have hn := ih _ (gone_trackOp st t k e h)
      refine ⟨hn.1, ?_⟩
      intro f hf
      exact hn.2 f hf
    | stopO e' =>
      have hn := ih _ (gone_stopOp st e' e h)
      refine ⟨hn.1, ?_⟩
      intro f hf
      exact hn.2 f hf
    | trigO t ty k nv =>
      have hn := ih _ h
      refine ⟨hn.1, ?_⟩
      intro f hf
      have hf2 : f ∈ triggerFired env st t ty k nv ++ (applyROps env st rest).2 := hf
      rcases List.mem_append.mp hf2 with hh | hh
      · obtain ⟨tk, d, htm, hfe⟩ := triggerFired_fires_mem env st t ty k nv f hh
        intro hco
        rw [hco] at hfe
        exact h.2.1 (tk, d) htm hfe
      · exact hn.2 f hh

theorem stopOp_rest_gone (st : RState) (e : Nat) (h : RestWF st)
    (hact : (getEff st e).active = true) :
    (getEff (stopOp e st) e).active = false
    ∧ getDeps (stopOp e st) e = []
    ∧ (∀ p ∈ (stopOp e st).tm, e ∉ p.2.effects)
    ∧ e ∉ (stopOp e st).runStack := by
  have hr : st.runStack = [] := h.2.2.2.1
  have hnone : activeEffect st = none := by
    unfold activeEffect
    rw [hr]
    rfl
  have hne : ¬ activeEffect st = some e := by
    rw [hnone]
    simp
  have hds : (getDeps st e).Nodup := by
    unfold getDeps getEff
    rcases hl : lookupEff st.effs e with _ | ed
    · exact List.nodup_nil
    · exact h.2.2.1.1 (e, ed) (lookupEff_mem _ _ _ hl)
  have hkeys : ((delFromDeps e (getDeps st e) st.tm).map (fun p => p.1)).Nodup := by
    rw [delFromDeps_keys]
    exact h.2.2.1.2.2.1
  unfold stopOp
  rw [if_neg hne, if_pos hact]
  refine ⟨?_, ?_, ?_, ?_⟩
  · unfold getEff cleanupEffectOp
    dsimp only
    rw [lookupEff_updEff_self, lookupEff_updEff_self]
    rcases lookupEff st.effs e with _ | ed
    · rfl
    · rfl
  · unfold getDeps getEff cleanupEffectOp
    dsimp only
    rw [lookupEff_updEff_self, lookupEff_updEff_self]
    rcases lookupEff st.effs e with _ | ed
    · rfl
    · rfl
  · intro p hp
    unfold cleanupEffectOp at hp
    dsimp only at hp
    have hlp : lookupTM (delFromDeps e (getDeps st e) st.tm) p.1 = some p.2 := by
      apply mem_lookupTM _ _ _ hkeys
      rw [Prod.mk.eta]
      exact hp
    rw [delFromDeps_lookup e (getDeps st e) st.tm hds p.1] at hlp
    rcases hl : lookupTM st.tm p.1 with _ | d
    · rw [hl] at hlp
      cases hlp
    rw [hl] at hlp
    simp only [Option.map_some', Option.some_inj] at hlp
    by_cases htk : p.1 ∈ getDeps st e
    · rw [if_pos htk] at hlp
      rw [← hlp]
      intro hco
      have hnd_eff : d.effects.Nodup :=
        h.2.2.1.2.1 (p.1, d) (lookupTM_mem _ _ _ hl)
      exact absurd rfl ((hnd_eff.mem_erase_iff).mp hco).1
    · rw [if_neg htk] at hlp
      rw [← hlp]
      intro hco
      exact htk (h.1 (p.1, d) (lookupTM_mem _ _ _ hl) e hco)
  · show e ∉ st.runStack
    rw [hr]
    simp

/-- Claim C4: `stop(effect)` on an effect that is not currently running
(here: at rest) leaves it inactive, with an empty `deps` list and removed
from every dep of the target map, and no subsequent sequence of public
operations — in particular no `trigger` on any target and key — ever
invokes that effect's scheduler or `run()` again. -/
theorem stop_then_trigger_never_fires (env : TgtEnv) (st : RState) (e : Nat)
    (ops : List ROp) (hrest : RestWF st) (hact : (getEff st e).active = true) :
    (getEff (stopOp e st) e).active = false
    ∧ getDeps (stopOp e st) e = []
    ∧ (∀ p ∈ (stopOp e st).tm, e ∉ p.2.effects)
    ∧ ∀ f ∈ (applyROps env (stopOp e st) ops).2, Fire.eff f ≠ e := by
  obtain ⟨h1, h2, h3, h4⟩ := stopOp_rest_gone st e hrest hact
  exact ⟨h1, h2, h3, (gone_applyROps env e ops _ ⟨h1, h3, h4⟩).2⟩

/-- Concrete instance of `stop_then_trigger_never_fires`: effect 7 is
subscribed to slot `(0, "x")`, stopped, then the slot is triggered and the
effect is even re-run by hand; it never fires. -/
theorem stop_then_trigger_never_fires_witness :
    (RestWF stC4 ∧ (getEff stC4 7).active = true)
    ∧ ((getEff (stopOp 7 stC4) 7).active = false
    ∧ getDeps (stopOp 7 stC4) 7 = []
    ∧ (∀ p ∈ (stopOp 7 stC4).tm, 7 ∉ p.2.effects)
    ∧ ∀ f ∈ (applyROps envC4 (stopOp 7 stC4) opsC4).2, Fire.eff f ≠ 7) :=
  ⟨⟨by decide, by decide⟩,
    stop_then_trigger_never_fires envC4 stC4 7 opsC4 (by decide) (by decide)⟩

end Reactivity

namespace DeferredC

/-- Claim C9: when the scheduler runs with `computedTrigger` false and no
flush is already scheduled (and the instance has a dep), it captures as
comparator the `compareTarget` snapshot if one was taken, else the current
`_value`; and the enqueued flush callback calls `triggerRefValue` iff the
effect is still active and the recomputed value (`_get()`, i.e. the getter
result when dirty, the cached value otherwise) differs by `!==` from that
snapshot — in particular an equal value produces no downstream
notification. -/
theorem deferred_flush_notifies_iff (st : DCState)
    (hdep : st.hasDep = true) (hsched : st.scheduled = false) :
    (schedStep st false).2 = some (st.compareTarget.getD st.value)
    ∧ ∀ (st' : DCState) (g vtc : Nat),
        (flushStep st' g vtc).2 = true
          ↔ st'.active = true ∧ (dcGet st' g).2 ≠ vtc := by
  constructor
  · simp [schedStep, hdep, hsched]
  · intro st' g vtc
    by_cases ha : st'.active
    · by_cases hd : st'.dirty <;> simp [flushStep, dcGet, ha, hd]
    · simp only [Bool.not_eq_true] at ha
      simp [flushStep, ha]

/-- Witness for `deferred_flush_notifies_iff`: on `dcW` the scheduler
captures comparator 1; a flush that recomputes to 1 does not notify, one
that recomputes to 2 does. -/
theorem deferred_flush_notifies_iff_witness :
    dcW.hasDep = true
    ∧ (schedStep dcW false).2 = some 1
    ∧ ¬ ((flushStep dcW 1 1).2 = true)
    ∧ (flushStep dcW 2 1).2 = true := by
  have h := deferred_flush_notifies_iff dcW rfl rfl
  refine ⟨rfl, h.1, ?_, ?_⟩
  · intro hc
    have := (h.2 _ 1 1).mp hc
    exact this.2 (by decide)
  · exact (h.2 _ 2 1).mpr ⟨rfl, by decide⟩

end DeferredC

namespace Sched

theorem fIILoop_ge (env : JEnv) (q : List Nat) (id : Nat) :
    ∀ k s e, s ≤ fIILoop env q id k s e := by
  intro k
  induction k with
  | zero => intro s e; rfl
  | succ k ih =>
    intro s e
    unfold fIILoop
    by_cases h : s < e
    · simp only [h, if_pos]
      split
      · have := ih ((s + e) / 2 + 1) e
        omega
      · exact ih s ((s + e) / 2)
    · simp [h]

theorem fIILoop_le (env : JEnv) (q : List Nat) (id : Nat) :
    ∀ k s e, s ≤ e → fIILoop env q id k s e ≤ e := by
  intro k
  induction k with
  | zero => intro s e h; exact h
  | succ k ih =>
    intro s e hse
    unfold fIILoop
    by_cases h : s < e
    · simp only [h, if_pos]
      split
      · exact ih ((s + e) / 2 + 1) e (by omega)
      · have := ih s ((s + e) / 2) (by omega)
        omega
    · simp [h, hse]

theorem queueJob_frame (env : JEnv) (st : SState) (x : Nat) :
    (queueJob env st x).flushIndex = st.flushIndex
    ∧ (queueJob env st x).invoked = st.invoked
    ∧ (queueJob env st x).isFlushing = st.isFlushing := by
  unfold queueJob
  split
  · split <;> exact ⟨rfl, rfl, rfl⟩
  · exact ⟨rfl, rfl, rfl⟩

theorem spliceIns_length (q : List Nat) (n x : Nat) :
    (spliceIns q n x).length = q.length + 1 := by
  unfold spliceIns
  simp [Nat.min_def]
  split <;> omega

theorem spliceIns_drop (q : List Nat) (n d x : Nat) (hd : d ≤ n) (hn : n ≤ q.length) :
    (spliceIns q n x).drop d = spliceIns (q.drop d) (n - d) x := by
  unfold spliceIns
  rw [List.drop_append_of_le_length
    (by rw [List.length_take]; exact Nat.le_min.mpr ⟨hd, le_trans hd hn⟩)]
  rw [List.drop_take, List.drop_drop]
  have h1 : d + (n - d) = n := by omega
  rw [h1]

theorem queueJob_queue_cases (env : JEnv) (st : SState) (x : Nat)
    (hlen : st.flushIndex + 1 ≤ st.queue.length) :
    (queueJob env st x).queue = st.queue
    ∨ ∃ n, st.flushIndex + 1 ≤ n ∧ n ≤ st.queue.length
        ∧ (queueJob env st x).queue = spliceIns st.queue n x := by
  unfold queueJob
  split
  · split
    · right
      refine ⟨st.queue.length, hlen, le_refl _, ?_⟩
      unfold spliceIns
      simp
    · right
      rename_i id heq
      refine ⟨findInsertionIndex env st id, ?_, ?_, rfl⟩
      · exact fIILoop_ge env st.queue id _ _ _
      · exact fIILoop_le env st.queue id _ _ _ hlen
  · left
    rfl

theorem compJ_neg (env : JEnv) (a b : Nat) : compJ env a b = - compJ env b a := by
  rcases ha : env.jid a with _ | i <;> rcases hb : env.jid b with _ | j <;>
    simp [compJ, ha, hb]
  by_cases hij : i = j
  · subst hij
    by_cases pa : env.jpre a <;> by_cases pb : env.jpre b <;> simp [pa, pb]
  · simp only [if_neg hij, if_neg (Ne.symm hij)]
    omega

theorem compJ_le_zero_somes (env : JEnv) (a b : Nat) (i j : Nat)
    (ha : env.jid a = some i) (hb : env.jid b = some j) :
    compJ env a b ≤ 0 ↔ (i < j ∨ (i = j ∧ (env.jpre b = true → env.jpre a = true))) := by
  simp only [compJ, ha, hb]
  by_cases hij : i = j
  · subst hij
    by_cases pa : env.jpre a <;> by_cases pb : env.jpre b <;> simp [pa, pb]
  · simp only [if_neg hij]
    constructor
    · intro h
      left
      omega
    · rintro (h | ⟨h, _⟩)
      · omega
      · exact absurd h hij

theorem compJ_trans (env : JEnv) (a b c : Nat)
    (h1 : compJ env a b ≤ 0) (h2 : compJ env b c ≤ 0) : compJ env a c ≤ 0 := by
  rcases ha : env.jid a with _ | i
  · rcases hb : env.jid b with _ | j
    · rcases hc : env.jid c with _ | k
      · simp [compJ, ha, hc]
      · simp [compJ, hb, hc] at h2
    · simp [compJ, ha, hb] at h1
  · rcases hb : env.jid b with _ | j
    · rcases hc : env.jid c with _ | k
      · simp [compJ, ha, hc]
      · simp [compJ, hb, hc] at h2
    · rcases hc : env.jid c with _ | k
      · simp [compJ, ha, hc]
      · have h1' := (compJ_le_zero_somes env a b i j ha hb).mp h1
        have h2' := (compJ_le_zero_somes env b c j k hb hc).mp h2
        apply (compJ_le_zero_somes env a c i k ha hc).mpr
        rcases h1' with hij | ⟨hij, hp1⟩
        · rcases h2' with hjk | ⟨hjk, hp2⟩
          · exact Or.inl (by omega)
          · exact Or.inl (by omega)
        · rcases h2' with hjk | ⟨hjk, hp2⟩
          · exact Or.inl (by omega)
          · exact Or.inr ⟨by omega, fun hcc => hp1 (hp2 hcc)⟩

theorem mem_insSorted (env : JEnv) (x : Nat) (l : List Nat) (y : Nat) :
    y ∈ insSorted env x l ↔ y = x ∨ y ∈ l := by
  induction l with
  | nil => simp [insSorted]
  | cons h t ih =>
    unfold insSorted
    split <;> (simp [ih]; try tauto)

theorem mem_sortJobs_aux (env : JEnv) (l : List Nat) :
    ∀ acc y, (y ∈ l.foldl (fun acc x => insSorted env x acc) acc ↔ y ∈ acc ∨ y ∈ l) := by
  induction l with
  | nil => simp
  | cons h t ih =>
    intro acc y
    simp only [List.foldl_cons]
    rw [ih, mem_insSorted]
    simp
    tauto

theorem mem_sortJobs (env : JEnv) (l : List Nat) (y : Nat) :
    y ∈ sortJobs env l ↔ y ∈ l := by
  unfold sortJobs
  rw [mem_sortJobs_aux]
  simp

theorem pairwise_insSorted (env : JEnv) (x : Nat) (l : List Nat)
    (hl : l.Pairwise (fun a b => compJ env a b ≤ 0)) :
    (insSorted env x l).Pairwise (fun a b => compJ env a b ≤ 0) := by
  induction l with
  | nil => simp [insSorted]
  | cons h t ih =>
    rw [List.pairwise_cons] at hl
    obtain ⟨hh, ht⟩ := hl
    unfold insSorted
    split
    · rename_i hpos
      have hxh : compJ env x h ≤ 0 := by
        have := compJ_neg env x h
        omega
      refine List.pairwise_cons.mpr ⟨?_, List.pairwise_cons.mpr ⟨hh, ht⟩⟩
      intro y hy
      rcases List.mem_cons.mp hy with rfl | hy'
      · exact hxh
      · exact compJ_trans env x h y hxh (hh y hy')
    · rename_i hneg
      refine List.pairwise_cons.mpr ⟨?_, ih ht⟩
      intro y hy
      rcases (mem_insSorted env x t y).mp hy with rfl | hy'
      · omega
      · exact hh y hy'

theorem pairwise_sortJobs_aux (env : JEnv) (l : List Nat) :
    ∀ acc, acc.Pairwise (fun a b => compJ env a b ≤ 0) →
      (l.foldl (fun acc x => insSorted env x acc) acc).Pairwise
        (fun a b => compJ env a b ≤ 0) := by
  induction l with
  | nil => exact fun acc h => h
  | cons h t ih =>
    intro acc hacc
    exact ih _ (pairwise_insSorted env h acc hacc)

theorem pairwise_sortJobs (env : JEnv) (l : List Nat) :
    (sortJobs env l).Pairwise (fun a b => compJ env a b ≤ 0) :=
  pairwise_sortJobs_aux env l [] List.Pairwise.nil

end Sched

namespace Sched

theorem pairwise_insert_middle {P : Nat → Nat → Prop} (A B : List Nat) (x : Nat)
    (h : (A ++ B).Pairwise P) (hx1 : ∀ y, P y x) (hx2 : ∀ y, P x y) :
    (A ++ x :: B).Pairwise P := by
  rw [List.pairwise_append] at h ⊢
  obtain ⟨hA, hB, hAB⟩ := h
  refine ⟨hA, List.pairwise_cons.mpr ⟨fun y _ => hx2 y, hB⟩, ?_⟩
  intro a ha b hb
  rcases List.mem_cons.mp hb with rfl | hb'
  · exact hx1 a
  · exact hAB a ha b hb'

theorem queueJob_pairwise (env : JEnv) (P : Nat → Nat → Prop) (st : SState) (x : Nat)
    (hx1 : ∀ y, P y x) (hx2 : ∀ y, P x y)
    (hlen : st.flushIndex + 1 ≤ st.queue.length)
    (hinv : (st.invoked ++ st.queue.drop (st.flushIndex + 1)).Pairwise P) :
    ((queueJob env st x).invoked
        ++ (queueJob env st x).queue.drop ((queueJob env st x).flushIndex + 1)).Pairwise P
    ∧ st.flushIndex + 1 ≤ (queueJob env st x).queue.length := by
  obtain ⟨hf, hi, _⟩ := queueJob_frame env st x
  rw [hf, hi]
  rcases queueJob_queue_cases env st x hlen with hq | ⟨n, hn1, hn2, hq⟩
  · rw [hq]
    exact ⟨hinv, hlen⟩
  · constructor
    · rw [hq, spliceIns_drop _ _ _ _ hn1 hn2]
      unfold spliceIns
      have horig : st.invoked ++ st.queue.drop (st.flushIndex + 1)
          = (st.invoked
              ++ (st.queue.drop (st.flushIndex + 1)).take (n - (st.flushIndex + 1)))
            ++ (st.queue.drop (st.flushIndex + 1)).drop (n - (st.flushIndex + 1)) := by
        rw [List.append_assoc, List.take_append_drop]
      rw [horig] at hinv
      have hmid := pairwise_insert_middle _ _ x hinv hx1 hx2
      rw [← List.append_assoc]
      exact hmid
    · rw [hq, spliceIns_length]
      omega

theorem foldl_queueJob_pairwise (env : JEnv) (P : Nat → Nat → Prop) (xs : List Nat)
    (hxs : ∀ x ∈ xs, (∀ y, P y x) ∧ (∀ y, P x y)) :
    ∀ st, st.flushIndex + 1 ≤ st.queue.length →
      (st.invoked ++ st.queue.drop (st.flushIndex + 1)).Pairwise P →
      ((xs.foldl (queueJob env) st).invoked
          ++ (xs.foldl (queueJob env) st).queue.drop
              ((xs.foldl (queueJob env) st).flushIndex + 1)).Pairwise P
      ∧ (xs.foldl (queueJob env) st).flushIndex = st.flushIndex
      ∧ (xs.foldl (queueJob env) st).invoked = st.invoked
      ∧ st.flushIndex + 1 ≤ (xs.foldl (queueJob env) st).queue.length := by
  induction xs with
  | nil => exact fun st hlen hinv => ⟨hinv, rfl, rfl, hlen⟩
  | cons x xs ih =>
    intro st hlen hinv
    obtain ⟨hx1, hx2⟩ := hxs x (List.mem_cons_self _ _)
    obtain ⟨hinv', hlen'⟩ := queueJob_pairwise env P st x hx1 hx2 hlen hinv
    obtain ⟨hff, hfi, _⟩ := queueJob_frame env st x
    obtain ⟨a1, a2, a3, a4⟩ := ih (fun y hy => hxs y (List.mem_cons_of_mem _ hy))
      (queueJob env st x) (by rw [hff]; exact hlen') (hinv')
    simp only [List.foldl_cons]
    exact ⟨a1, by rw [a2, hff], by rw [a3, hfi], by rw [← hff]; exact a4⟩

theorem pairwise_of_pairwise_append {P : Nat → Nat → Prop} {A B : List Nat}
    (h : (A ++ B).Pairwise P) : A.Pairwise P :=
  (List.pairwise_append.mp h).1

theorem drop_flushIndex_cons (st : SState) (h : st.flushIndex < st.queue.length) :
    st.queue.drop st.flushIndex
      = st.queue.getD st.flushIndex 0 :: st.queue.drop (st.flushIndex + 1) := by
  rw [List.getD_eq_getElem _ _ h]
  exact List.drop_eq_getElem_cons h

theorem flushStep_pairwise (env : JEnv) (P : Nat → Nat → Prop)
    (henq : ∀ j x, x ∈ env.enq j → (∀ y, P y x) ∧ (∀ y, P x y))
    (st : SState) (h : st.flushIndex < st.queue.length)
    (hinv : (st.invoked ++ st.queue.drop st.flushIndex).Pairwise P) :
    ((flushStep env st).invoked
      ++ (flushStep env st).queue.drop (flushStep env st).flushIndex).Pairwise P := by
  have hdrop := drop_flushIndex_cons st h
  unfold flushStep
  split
  · have hinv2 : ((st.invoked ++ [st.queue.getD st.flushIndex 0])
        ++ st.queue.drop (st.flushIndex + 1)).Pairwise P := by
      rw [List.append_assoc]
      rw [hdrop] at hinv
      exact hinv
    obtain ⟨a1, a2, a3, a4⟩ := foldl_queueJob_pairwise env P
      (env.enq (st.queue.getD st.flushIndex 0))
      (fun x hx => henq _ x hx)
      { st with invoked := st.invoked ++ [st.queue.getD st.flushIndex 0] }
      (by simpa using h) hinv2
    exact a1
  · rw [hdrop] at hinv
    have hsub : List.Sublist (st.invoked ++ st.queue.drop (st.flushIndex + 1))
        (st.invoked ++ st.queue.getD st.flushIndex 0 :: st.queue.drop (st.flushIndex + 1)) :=
      List.Sublist.append_left (List.sublist_cons_self _ _) _
    exact hinv.sublist hsub

theorem flushLoop_pairwise (env : JEnv) (P : Nat → Nat → Prop)
    (henq : ∀ j x, x ∈ env.enq j → (∀ y, P y x) ∧ (∀ y, P x y)) :
    ∀ fuel st, (st.invoked ++ st.queue.drop st.flushIndex).Pairwise P →
      ((flushLoop env fuel st).invoked).Pairwise P := by
  intro fuel
  induction fuel with
  | zero => exact fun st hinv => pairwise_of_pairwise_append hinv
  | succ fuel ih =>
    intro st hinv
    unfold flushLoop
    by_cases h : st.flushIndex < st.queue.length
    · rw [if_pos h]
      exact ih _ (flushStep_pairwise env P henq st h hinv)
    · rw [if_neg h]
      exact pairwise_of_pairwise_append hinv

end Sched

namespace Sched

/-- Claim C2 (amended): within one `flushJobs` invocation, any two jobs
that were in the queue when the drain sorted it and are not re-enqueued
during the drain are invoked in comparator order: ascending defined id,
and at equal id a pre job before a non-pre job.  (A job enqueued while the
drain is running is inserted after the currently running job and can be
invoked after already-run jobs with larger ids — see the counterexample.) -/
theorem flushJobs_initial_jobs_ordered (env : JEnv) (fuel : Nat) (queue : List Nat)
    (hfresh : ∀ j x, x ∈ env.enq j → x ∉ queue) :
    ((flushJobs env fuel queue).invoked).Pairwise (fun a b =>
      a ∈ queue → b ∈ queue →
        ∀ ia ib, env.jid a = some ia → env.jid b = some ib →
          ia ≤ ib ∧ (ia = ib → env.jpre b = true → env.jpre a = true)) := by
  unfold flushJobs
  refine flushLoop_pairwise env _ ?_ fuel _ ?_
  · intro j x hx
    constructor
    · intro y _ hxq
      exact absurd hxq (hfresh j x hx)
    · intro y hxq
      exact absurd hxq (hfresh j x hx)
  · simp only [List.nil_append, List.drop_zero]
    apply (pairwise_sortJobs env queue).imp
    intro a b hR haq hbq ia ib hia hib
    rcases (compJ_le_zero_somes env a b ia ib hia hib).mp hR with hlt | ⟨heq, himp⟩
    · exact ⟨Nat.le_of_lt hlt, fun heq' _ => absurd heq' (Nat.ne_of_lt hlt)⟩
    · exact ⟨Nat.le_of_eq heq, fun _ hpb => himp hpb⟩

/-- Claim C2 (counterexample): draining the queue `[job 0]` invokes job 0
(id 5) and then job 1 (id 1), which job 0 enqueued mid-drain — job 1 is
spliced after the running job, so invocation order violates `A.id ≤ B.id`
for jobs enqueued while the drain is running. -/
theorem flushJobs_order_counterexample :
    (flushJobs envC2 4 [0]).invoked = [0, 1]
    ∧ envC2.jid 0 = some 5 ∧ envC2.jid 1 = some 1
    ∧ ¬ ((5 : Nat) ≤ 1) := by
  refine ⟨by decide, rfl, rfl, by decide⟩

theorem queueJob_length_ge (env : JEnv) (st : SState) (x : Nat)
    (hlen : st.flushIndex + 1 ≤ st.queue.length) :
    st.queue.length ≤ (queueJob env st x).queue.length := by
  rcases queueJob_queue_cases env st x hlen with hq | ⟨n, _, _, hq⟩
  · rw [hq]
  · rw [hq, spliceIns_length]
    omega

theorem queueJob_count_drop (env : JEnv) (st : SState) (x j : Nat) (hxj : x ≠ j)
    (hlen : st.flushIndex + 1 ≤ st.queue.length) :
    ((queueJob env st x).queue.drop (st.flushIndex + 1)).count j
      = (st.queue.drop (st.flushIndex + 1)).count j := by
  rcases queueJob_queue_cases env st x hlen with hq | ⟨n, hn1, hn2, hq⟩
  · rw [hq]
  · rw [hq, spliceIns_drop _ _ _ _ hn1 hn2]
    unfold spliceIns
    conv_rhs => rw [← List.take_append_drop (n - (st.flushIndex + 1))
      (st.queue.drop (st.flushIndex + 1))]
    rw [List.count_append, List.count_append, List.count_cons]
    simp [hxj, Ne.symm hxj]

theorem foldl_queueJob_count (env : JEnv) (j : Nat) (xs : List Nat)
    (hxs : ∀ x ∈ xs, x ≠ j) :
    ∀ st, st.flushIndex + 1 ≤ st.queue.length →
      ((xs.foldl (queueJob env) st).queue.drop (st.flushIndex + 1)).count j
        = (st.queue.drop (st.flushIndex + 1)).count j
      ∧ (xs.foldl (queueJob env) st).invoked = st.invoked
      ∧ (xs.foldl (queueJob env) st).flushIndex = st.flushIndex
      ∧ st.flushIndex + 1 ≤ (xs.foldl (queueJob env) st).queue.length := by
  induction xs with
  | nil => exact fun st hlen => ⟨rfl, rfl, rfl, hlen⟩
  | cons x xs ih =>
    intro st hlen
    obtain ⟨hff, hfi, _⟩ := queueJob_frame env st x
    have hlen' : (queueJob env st x).flushIndex + 1 ≤ (queueJob env st x).queue.length := by
      rw [hff]
      exact le_trans hlen (queueJob_length_ge env st x hlen)
    obtain ⟨a1, a2, a3, a4⟩ := ih (fun y hy => hxs y (List.mem_cons_of_mem _ hy))
      (queueJob env st x) hlen'
    simp only [List.foldl_cons]
    rw [hff] at a1 a3 a4
    refine ⟨?_, by rw [a2, hfi], a3, a4⟩
    rw [a1, queueJob_count_drop env st x j (hxs x (List.mem_cons_self _ _)) hlen]

theorem flushLoop_count (env : JEnv) (j : Nat) (hno : ∀ x, j ∉ env.enq x) :
    ∀ fuel st, (flushLoop env fuel st).invoked.count j
      ≤ st.invoked.count j + (st.queue.drop st.flushIndex).count j := by
  intro fuel
  induction fuel with
  | zero => exact fun st => Nat.le_add_right _ _
  | succ fuel ih =>
    intro st
    unfold flushLoop
    by_cases h : st.flushIndex < st.queue.length
    · rw [if_pos h]
      refine le_trans (ih (flushStep env st)) ?_
      have hdrop := drop_flushIndex_cons st h
      unfold flushStep
      split
      · obtain ⟨a1, a2, a3, a4⟩ := foldl_queueJob_count env j
          (env.enq (st.queue.getD st.flushIndex 0))
          (fun y hy => fun hyj => hno _ (hyj ▸ hy))
          { st with invoked := st.invoked ++ [st.queue.getD st.flushIndex 0] }
          (by simpa using h)
        simp only [a2, a3, a1]
        rw [hdrop]
        by_cases hjj : st.queue.getD st.flushIndex 0 = j <;>
          simp [List.count_append, List.count_cons, hjj] <;> omega
      · simp only []
        rw [hdrop]
        by_cases hjj : st.queue.getD st.flushIndex 0 = j <;>
          simp [List.count_cons, hjj]
    · rw [if_neg h]
      exact Nat.le_add_right _ _

/-- Claim C8: a `queueJob(j)` call while `j` is already in the queue at an
index at least the dedup start (`flushIndex`, or `flushIndex + 1` when
flushing and `j.allowRecurse`) leaves the whole scheduler state — in
particular the queue contents — unchanged; and when `j` is pending exactly
once and nothing re-enqueues it, the drain invokes `j` at most once. -/
theorem queueJob_idempotent (env : JEnv) (st : SState) (j : Nat)
    (hmem : j ∈ st.queue.drop (dedupStart env st j)) :
    queueJob env st j = st
    ∧ (∀ fuel, (∀ x, j ∉ env.enq x) → st.invoked = [] →
        (st.queue.drop st.flushIndex).count j = 1 →
        (flushLoop env fuel st).invoked.count j ≤ 1) := by
  constructor
  · unfold queueJob
    rw [if_neg]
    push_neg
    refine ⟨?_, hmem⟩
    intro hq
    rw [hq] at hmem
    simp at hmem
  · intro fuel hno hinv hcount
    have hb := flushLoop_count env j hno fuel st
    rw [hinv, hcount] at hb
    simpa using hb

/-- Witness for `queueJob_idempotent` at `stW8` with job 7. -/
theorem queueJob_idempotent_witness :
    (7 ∈ stW8.queue.drop (dedupStart envW8 stW8 7))
    ∧ queueJob envW8 stW8 7 = stW8
    ∧ (flushLoop envW8 5 stW8).invoked.count 7 ≤ 1 := by
  refine ⟨by decide, (queueJob_idempotent envW8 stW8 7 (by decide)).1,
    (queueJob_idempotent envW8 stW8 7 (by decide)).2 5
      (fun x => List.not_mem_nil 7) rfl (by decide)⟩

end Sched

namespace Sched

/-- Witness for `flushJobs_initial_jobs_ordered`: draining `[J1, J2, J3]`
invokes them as `J2, J3, J1`, and that order is pairwise comparator-sorted. -/
theorem flushJobs_initial_jobs_ordered_witness :
    (flushJobs envS3 5 [1, 2, 3]).invoked = [2, 3, 1]
    ∧ ((flushJobs envS3 5 [1, 2, 3]).invoked).Pairwise (fun a b =>
        a ∈ [1, 2, 3] → b ∈ [1, 2, 3] →
          ∀ ia ib, envS3.jid a = some ia → envS3.jid b = some ib →
            ia ≤ ib ∧ (ia = ib → envS3.jpre b = true → envS3.jpre a = true)) :=
  ⟨by decide, flushJobs_initial_jobs_ordered envS3 5 [1, 2, 3]
    (fun j x hx => absurd hx (List.not_mem_nil x))⟩

end Sched
